import Mathlib

/-!
Shallow embedding of the evolutionary optimization engine of
`packages/discord-bot/src/agents/openevolve-runner.py` (the `SimpleEvolver`
class and the `run_evolution` / `continue_evolution` drivers).

Modelling conventions:
* Python floats are modelled by `ℚ`; every arithmetic operation performed by
  the engine (additions of decimal constants, divisions of counts, `min`,
  comparisons) is exact, so the rational model is faithful.
* Randomness (`random.random`, `random.choice`, `random.sample`,
  `random.randint`) is modelled by an `Oracle`: two streams of draws indexed
  by a counter that every primitive draw advances by one.  Universally
  quantifying over the oracle quantifies over every possible sequence of
  draws.
* Python exceptions (IndexError from `island[0]` on an empty island,
  ValueError from `random.sample(pop, 2)` with `len(pop) < 2`,
  IndexError from `random.choice([])`, ZeroDivisionError from `// 0`)
  are modelled by `Option`: a `none` result is a crash of the source.
-/

structure Oracle where
  ints : ℕ → ℕ
  reals : ℕ → ℚ

/-- Model of `random.random()`; one draw from the rational stream. -/
def pyRandom (o : Oracle) (k : ℕ) : ℚ × ℕ := (o.reals k, k + 1)

/-- Model of `random.choice(l)`: raises (returns `none`) on an empty list. -/
def pyChoice {α : Type} (o : Oracle) (k : ℕ) : List α → Option (α × ℕ)
  | [] => none
  | x :: xs => some ((x :: xs).getD (o.ints k % (x :: xs).length) x, k + 1)

/-- Model of `random.randint(a, b)` (inclusive bounds). -/
def pyRandint (o : Oracle) (k : ℕ) (a b : ℕ) : ℕ × ℕ :=
  (a + o.ints k % (b + 1 - a), k + 1)

/-- Model of `random.sample(l, 2)`: two distinct positions; raises
(`none`) when the population has fewer than two elements. -/
def pySampleTwo {α : Type} (o : Oracle) (k : ℕ) : List α → Option (α × α × ℕ)
  | [] => none
  | [_] => none
  | x :: y :: rest =>
    let l := x :: y :: rest
    let n := l.length
    let i := o.ints k % n
    let j0 := o.ints (k + 1) % (n - 1)
    let j := if i ≤ j0 then j0 + 1 else j0
    some (l.getD i x, l.getD j x, k + 2)

/-- Split a character list at every separator character; empty pieces are
kept, exactly as Python `str.split` produces them before the whitespace
variant drops them. -/
def splitChars (p : Char → Bool) : List Char → List (List Char)
  | [] => [[]]
  | c :: cs =>
    if p c then [] :: splitChars p cs
    else
      match splitChars p cs with
      | [] => [[c]]
      | w :: ws => (c :: w) :: ws

/-- Model of Python `str.split()`: split on whitespace, dropping empties. -/
def pyWords (s : String) : List String :=
  ((splitChars (fun c => c.isWhitespace) s.data).filter (fun w => w ≠ [])).map
    fun w => String.mk w

/-- Model of Python `str.lower()` (the engine's contents are ASCII). -/
def pyToLower (s : String) : String := String.mk (s.data.map Char.toLower)

/-- Fuel-driven replacement of every occurrence of `pat`, scanning left to
right without overlap; with fuel at least the text length this is the
semantics of Python `str.replace` for a non-empty pattern. -/
def replaceFuel (pat rep : List Char) : ℕ → List Char → List Char
  | 0, cs => cs
  | _ + 1, [] => []
  | fuel + 1, c :: cs =>
    if pat.isPrefixOf (c :: cs) ∧ pat ≠ [] then
      rep ++ replaceFuel pat rep fuel ((c :: cs).drop pat.length)
    else c :: replaceFuel pat rep fuel cs

/-- Model of Python `text.replace(pat, rep)` for a non-empty pattern. -/
def pyReplace (s pat rep : String) : String :=
  String.mk (replaceFuel pat.data rep.data s.data.length s.data)

/-- Model of Python `str.strip()`. -/
def pyStrip (s : String) : String :=
  String.mk (((s.data.dropWhile fun c => c.isWhitespace).reverse.dropWhile
    fun c => c.isWhitespace).reverse)

/-- Substring search over character lists. -/
def subSearch (pat : List Char) : List Char → Bool
  | [] => pat.isEmpty
  | c :: cs => pat.isPrefixOf (c :: cs) || subSearch pat cs

/-- Distinct elements of a list: the engine uses only the count (Python
`len(set(l))`) and membership, so the order of the result is irrelevant. -/
def pyDistinct {α : Type} [DecidableEq α] : List α → List α
  | [] => []
  | x :: xs =>
    let r := pyDistinct xs
    if x ∈ r then r else x :: r

/-- Model of `" ".join(ws)`. -/
def pyJoin (ws : List String) : String := String.intercalate " " ws

/-- Model of Python `pat in s` (substring containment). -/
def strIn (pat s : String) : Bool := subSearch pat.data s.data

/-- Evolution candidate (`Candidate` dataclass). -/
structure Candidate where
  id : String
  content : String
  fitness : ℚ := 0
  novelty : ℚ := 0
  generation : ℕ := 0
  parent_id : Option String := none
  mutation_type : Option String := none
deriving DecidableEq

instance : Inhabited Candidate := ⟨{ id := "", content := "" }⟩

/-- Statistics for one generation (`GenerationStats` dataclass). -/
structure GenerationStats where
  generation : ℕ
  best_fitness : ℚ
  avg_fitness : ℚ
  diversity : ℚ
  population_size : ℕ
  improvements : ℕ
deriving DecidableEq

/-- State of the `SimpleEvolver` object. -/
structure SimpleEvolver where
  seed : String
  evaluation_criteria : String
  population_size : ℕ
  num_islands : ℕ
  mutation_model : String
  evaluation_model : String
  elitism : Bool
  crossover_rate : ℚ
  mutation_rate : ℚ
  islands : List (List Candidate)
  generation : ℕ
  best_candidate : Option Candidate
  history : List GenerationStats
  total_evaluations : ℕ
deriving DecidableEq

namespace SimpleEvolver

/-- Method `_swap_words`: swap two random words. -/
def swap_words (o : Oracle) (k : ℕ) (text : String) : String × ℕ :=
  let words := pyWords text
  if words.length < 2 then (text, k)
  else
    match pySampleTwo o k (List.range words.length) with
    | none => (text, k)
    | some (i, j, k') =>
      let wi := words.getD i ""
      let wj := words.getD j ""
      (pyJoin ((words.set i wj).set j wi), k')

/-- The fixed phrase list of `_insert_phrase`. -/
def phrases : List String :=
  ["Additionally,", "Furthermore,", "Moreover,", "In particular,", "Specifically,"]

/-- Method `_insert_phrase`: insert a phrase at a random position. -/
def insert_phrase (o : Oracle) (k : ℕ) (text : String) : String × ℕ :=
  let words := pyWords text
  if words.length = 0 then (text, k)
  else
    let (pos, k1) := pyRandint o k 0 words.length
    match pyChoice o k1 phrases with
    | none => (text, k1)
    | some (ph, k2) => (pyJoin (words.insertIdx pos ph), k2)

/-- Method `_mutate_text`: pick one of five mutations uniformly. -/
def mutate_text (o : Oracle) (k : ℕ) (text : String) : String × ℕ :=
  let idx := o.ints k % 5
  let k1 := k + 1
  if idx = 0 then (pyReplace text "  " " ", k1)
  else if idx = 1 then (text ++ "\n", k1)
  else if idx = 2 then (pyStrip text, k1)
  else if idx = 3 then swap_words o k1 text
  else insert_phrase o k1 text

/-- Method `_create_initial_population`: `population_size // num_islands`
candidates, the first being the unmutated seed. -/
def create_initial_population (o : Oracle) (seed : String)
    (population_size num_islands : ℕ) (k : ℕ) : List Candidate × ℕ :=
  (List.range (population_size / num_islands)).foldl
    (fun acc i =>
      let population := acc.1
      let (content, k') :=
        if i > 0 then mutate_text o acc.2 seed else (seed, acc.2)
      (population ++
        [{ id := "gen0_island" ++ toString population.length ++ "_" ++ toString i,
           content := content, generation := 0 }], k'))
    (([] : List Candidate), k)

/-- Constructor `SimpleEvolver.__init__`.  Note that it has no failure
path: islands are built by a comprehension over `range(num_islands)`,
so `num_islands = 0` simply yields an empty island list. -/
def make (o : Oracle) (seed evaluation_criteria : String)
    (population_size num_islands : ℕ)
    (mutation_model evaluation_model : String)
    (elitism : Bool) (crossover_rate mutation_rate : ℚ)
    (k : ℕ) : SimpleEvolver × ℕ :=
  let start : List (List Candidate) × ℕ := ([], k)
  let built := (List.range num_islands).foldl
    (fun acc _ =>
      let (isl, k') :=
        create_initial_population o seed population_size num_islands acc.2
      (acc.1 ++ [isl], k'))
    start
  ({ seed := seed, evaluation_criteria := evaluation_criteria,
     population_size := population_size, num_islands := num_islands,
     mutation_model := mutation_model, evaluation_model := evaluation_model,
     elitism := elitism, crossover_rate := crossover_rate,
     mutation_rate := mutation_rate, islands := built.1,
     generation := 0, best_candidate := none, history := [],
     total_evaluations := 0 }, built.2)

/-- Method `_evaluate` as a function of the evaluation criteria: the code
reads only `self.evaluation_criteria` from the engine state. -/
def evaluate_with (evaluation_criteria : String) (candidate : Candidate) : ℚ :=
  let content := pyToLower candidate.content
  let score : ℚ := 1/2
  let length := content.length
  let score := if 100 < length ∧ length < 5000 then score + 1/10 else score
  let score := if 500 < length ∧ length < 2000 then score + 1/10 else score
  let score :=
    if strIn "step" content ∨ strIn "1." content ∨
       strIn "first" content ∨ strIn "then" content
    then score + 1/10 else score
  let criteria_words := pyWords (pyToLower evaluation_criteria)
  let matched := (criteria_words.filter (fun w => strIn w content)).length
  let score := score + min (1/5) ((matched : ℚ) * (1/50))
  let score := if candidate.parent_id.getD "" ≠ "" then score + 1/20 else score
  min score 1

/-- Method `_evaluate` on the engine state. -/
def evaluate (self : SimpleEvolver) (candidate : Candidate) : ℚ :=
  evaluate_with self.evaluation_criteria candidate

end SimpleEvolver

namespace SimpleEvolver

/-- Method `_crossover`: single-point crossover at the midpoint of the
shorter parent's word sequence. -/
def crossover (self : SimpleEvolver) (o : Oracle) (k : ℕ)
    (parent1 parent2 : Candidate) : Candidate × ℕ :=
  let words1 := pyWords parent1.content
  let words2 := pyWords parent2.content
  let point := min words1.length words2.length / 2
  let child_words := words1.take point ++ words2.drop point
  let (r, k') := pyRandint o k 0 9999
  ({ id := "gen" ++ toString self.generation ++ "_cross_" ++ toString r,
     content := pyJoin child_words,
     generation := self.generation,
     parent_id := some parent1.id,
     mutation_type := some "crossover" }, k')

/-- Method `_mutate`: create a mutated offspring. -/
def mutate (self : SimpleEvolver) (o : Oracle) (k : ℕ) (parent : Candidate) :
    Candidate × ℕ :=
  let (r, k1) := pyRandint o k 0 9999
  let (content, k2) := mutate_text o k1 parent.content
  ({ id := "gen" ++ toString self.generation ++ "_mut_" ++ toString r,
     content := content, generation := self.generation,
     parent_id := some parent.id, mutation_type := some "point" }, k2)

/-- One iteration body of the offspring `while` loop in
`evolve_generation`: crossover with probability `crossover_rate` when the
island has at least two members, otherwise mutation of a sampled parent.
`none` models the uncaught `ValueError` of `random.sample` (fewer than two
elements in `island[:len(island)//2]`) or the `IndexError` of
`random.choice([])`. -/
def make_child (self : SimpleEvolver) (o : Oracle) (k : ℕ)
    (island : List Candidate) : Option (Candidate × ℕ) :=
  let rk := pyRandom o k
  if rk.1 < self.crossover_rate ∧ 2 ≤ island.length then
    match pySampleTwo o rk.2 (island.take (island.length / 2)) with
    | none => none
    | some ppk => some (crossover self o ppk.2.2 ppk.1 ppk.2.1)
  else
    match pyChoice o rk.2 (island.take (island.length / 2)) with
    | none => none
    | some pk => some (mutate self o pk.2 pk.1)

/-- The offspring `while` loop: append children until the island reaches
`target = population_size // num_islands` members.  Every iteration grows
the accumulator by exactly one child, so the loop performs at most
`target - acc.length` iterations; the fuel parameter (always called with
`fuel = target`) makes the recursion structural without changing the
computed value. -/
def fill_island (self : SimpleEvolver) (o : Oracle) (island : List Candidate) :
    ℕ → ℕ → List Candidate → ℕ → Option (List Candidate × ℕ)
  | 0, target, acc, k => if acc.length < target then none else some (acc, k)
  | fuel + 1, target, acc, k =>
    if acc.length < target then
      match make_child self o k island with
      | none => none
      | some ck => fill_island self o island fuel target (acc ++ [ck.1]) ck.2
    else some (acc, k)

/-- The Python expression `self.best_candidate.fitness if self.best_candidate else 0`. -/
def best_fitness_val : Option Candidate → ℚ
  | none => 0
  | some c => c.fitness

/-- The evaluation pass of `evolve_generation`: every candidate whose
fitness is the `0.0` sentinel is scored. -/
def eval_island (criteria : String) (island : List Candidate) : List Candidate :=
  island.map fun c =>
    if c.fitness = 0 then { c with fitness := evaluate_with criteria c } else c

/-- The in-place `island.sort(key=lambda c: c.fitness, reverse=True)`:
a stable sort, descending by fitness. -/
def sort_island (island : List Candidate) : List Candidate :=
  List.insertionSort (fun a b => b.fitness ≤ a.fitness) island

/-- The per-island body of `evolve_generation`: evaluate, sort, track the
best candidate, then rebuild the island (elitism plus offspring).
Returns the new island, the updated best candidate and improvements
counter, the number of evaluations performed, and the oracle counter. -/
def step_island (self : SimpleEvolver) (o : Oracle) (k : ℕ)
    (best : Option Candidate) (improvements : ℕ) (island : List Candidate) :
    Option (List Candidate × Option Candidate × ℕ × ℕ × ℕ) :=
  let evals := (island.filter fun c => c.fitness = 0).length
  let sorted := sort_island (eval_island self.evaluation_criteria island)
  match sorted with
  | [] => none
  | top :: _ =>
    let bi :=
      if best_fitness_val best < top.fitness then (some top, improvements + 1)
      else (best, improvements)
    if self.num_islands = 0 then none
    else
      let elite_count := max 1 (sorted.length / 5)
      let start := if self.elitism then sorted.take elite_count else []
      match fill_island self o sorted (self.population_size / self.num_islands)
          (self.population_size / self.num_islands) start k with
      | none => none
      | some nk => some (nk.1, bi.1, bi.2, evals, nk.2)

/-- The `for island_idx, island in enumerate(self.islands)` loop, threading
the best candidate and the improvements counter across islands. -/
def step_islands (self : SimpleEvolver) (o : Oracle) :
    List (List Candidate) → List (List Candidate) → Option Candidate → ℕ → ℕ → ℕ →
    Option (List (List Candidate) × Option Candidate × ℕ × ℕ × ℕ)
  | [], done, best, impr, evals, k => some (done, best, impr, evals, k)
  | island :: rest, done, best, impr, evals, k =>
    match step_island self o k best impr island with
    | none => none
    | some r =>
      step_islands self o rest (done ++ [r.1]) r.2.1 r.2.2.1 (evals + r.2.2.2.1)
        r.2.2.2.2

/-- One iteration of the migration loop: append the head of island `i`
(if any) to the circularly next island. -/
def migrate_step (islands : List (List Candidate)) (i : ℕ) :
    List (List Candidate) :=
  match islands.getD i [] with
  | [] => islands
  | migrant :: _ =>
    let nxt := (i + 1) % islands.length
    islands.set nxt (islands.getD nxt [] ++ [migrant])

/-- The migration loop of `evolve_generation` (sequential, in index order,
reading each source island after earlier appends). -/
def migrate (islands : List (List Candidate)) : List (List Candidate) :=
  (List.range islands.length).foldl migrate_step islands

/-- The flattened list of all candidates of all islands. -/
def all_candidates (islands : List (List Candidate)) : List Candidate :=
  islands.flatten

/-- The `best_fitness` statistic: `max(fitnesses) if fitnesses else 0`
over the strictly positive fitness values. -/
def best_fitness_of (islands : List (List Candidate)) : ℚ :=
  let fitnesses := ((all_candidates islands).map Candidate.fitness).filter fun q => 0 < q
  if fitnesses = [] then 0 else fitnesses.foldr max 0

/-- The `avg_fitness` statistic. -/
def avg_fitness_of (islands : List (List Candidate)) : ℚ :=
  let fitnesses := ((all_candidates islands).map Candidate.fitness).filter fun q => 0 < q
  if fitnesses = [] then 0 else fitnesses.sum / fitnesses.length

/-- The `diversity` statistic: distinct contents over total count. -/
def diversity_of (islands : List (List Candidate)) : ℚ :=
  let all := all_candidates islands
  if all = [] then 0
  else ((pyDistinct (all.map Candidate.content)).length : ℚ) / all.length

/-- Method `evolve_generation`: one full generation step. -/
def evolve_generation (self : SimpleEvolver) (o : Oracle) (k : ℕ) :
    Option (SimpleEvolver × GenerationStats × ℕ) :=
  let self1 := { self with generation := self.generation + 1 }
  match step_islands self1 o self1.islands [] self1.best_candidate 0 0 k with
  | none => none
  | some res =>
    let migrated :=
      if self1.generation % 5 = 0 ∧ 1 < res.1.length then migrate res.1
      else res.1
    let stats : GenerationStats :=
      { generation := self1.generation,
        best_fitness := best_fitness_of migrated,
        avg_fitness := avg_fitness_of migrated,
        diversity := diversity_of migrated,
        population_size := (all_candidates migrated).length,
        improvements := res.2.2.1 }
    some ({ self1 with
              islands := migrated
              best_candidate := res.2.1
              history := self1.history ++ [stats]
              total_evaluations := self1.total_evaluations + res.2.2.2.1 }, stats,
      res.2.2.2.2)

/-- The generation loop of `run_evolution` and `continue_evolution`:
`n` successive calls of `evolve_generation`. -/
def run_generations (o : Oracle) : ℕ → SimpleEvolver → ℕ → Option (SimpleEvolver × ℕ)
  | 0, e, k => some (e, k)
  | n + 1, e, k =>
    match evolve_generation e o k with
    | none => none
    | some r => run_generations o n r.1 r.2.2

/-- Novelty of a candidate as computed inside `get_pareto_front`. -/
def novelty_of (all : List Candidate) (candidate : Candidate) : ℚ :=
  let others_content := (all.filter fun c => c.id ≠ candidate.id).map Candidate.content
  if others_content = [] then 1
  else
    let cwords := pyWords candidate.content
    let similar := others_content.filter fun other =>
      decide ((4 : ℚ)/5 <
        (((pyDistinct cwords).filter fun w => (pyWords other).contains w).length : ℚ) /
          (max cwords.length 1))
    1 - (similar.length : ℚ) / others_content.length

/-- The in-place novelty write `candidate.novelty = 1 - avg_similarity`
performed by `get_pareto_front` on each candidate. -/
def write_novelty (all : List Candidate) (c : Candidate) : Candidate :=
  { c with novelty := novelty_of all c }

/-- Method `get_pareto_front`.  The novelty writes happen in place on the
island candidates (Python aliasing), so the method returns both the
updated engine state and the selected front. -/
def get_pareto_front (self : SimpleEvolver) : SimpleEvolver × List Candidate :=
  let all := all_candidates self.islands
  let updated := all.map (write_novelty all)
  let self' := { self with
    islands := self.islands.map fun isl => isl.map (write_novelty all) }
  let sorted := List.insertionSort
    (fun a b => b.fitness + b.novelty * (1/2) ≤ a.fitness + a.novelty * (1/2))
    updated
  (self', sorted.take 10)

end SimpleEvolver

/-- JSON documents as written by `json.dump` and read by `json.load`.
Numbers are rationals (exact model of the engine's float values). -/
inductive Json where
  | null : Json
  | bool (b : Bool) : Json
  | num (q : ℚ) : Json
  | str (s : String) : Json
  | arr (xs : List Json) : Json
  | obj (fields : List (String × Json)) : Json

/-- Dictionary access `j[key]` (KeyError or TypeError modelled as `none`). -/
def Json.getField : Json → String → Option Json
  | .obj fields, key => fields.lookup key
  | _, _ => none

/-- Expect a JSON string. -/
def Json.asStr : Json → Option String
  | .str s => some s
  | _ => none

/-- Expect a JSON number. -/
def Json.asRat : Json → Option ℚ
  | .num q => some q
  | _ => none

/-- Expect a JSON non-negative integer. -/
def Json.asNat : Json → Option ℕ
  | .num q => if q.den = 1 ∧ 0 ≤ q.num then some q.num.toNat else none
  | _ => none

/-- Expect a JSON array. -/
def Json.asArr : Json → Option (List Json)
  | .arr xs => some xs
  | _ => none

/-- Expect a JSON string or null (an optional dataclass field). -/
def Json.asOptStr : Json → Option (Option String)
  | .null => some none
  | .str s => some (some s)
  | _ => none

/-- Python truthiness of a JSON value. -/
def Json.truthy : Json → Bool
  | .null => false
  | .bool b => b
  | .num q => decide (q ≠ 0)
  | .str s => decide (s ≠ "")
  | .arr xs => !xs.isEmpty
  | .obj fields => !fields.isEmpty

/-- Encoding of an optional string field, as `asdict` plus `json.dump`. -/
def optStrJson : Option String → Json
  | none => .null
  | some s => .str s

/-- `asdict(candidate)` serialized by `json.dump`. -/
def candidateJson (c : Candidate) : Json :=
  .obj [("id", .str c.id), ("content", .str c.content), ("fitness", .num c.fitness),
        ("novelty", .num c.novelty), ("generation", .num (c.generation : ℚ)),
        ("parent_id", optStrJson c.parent_id),
        ("mutation_type", optStrJson c.mutation_type)]

/-- `Candidate(**c)` applied to a parsed JSON dictionary. -/
def candidateOfJson (j : Json) : Option Candidate := do
  let id ← (← j.getField "id").asStr
  let content ← (← j.getField "content").asStr
  let fitness ← (← j.getField "fitness").asRat
  let novelty ← (← j.getField "novelty").asRat
  let generation ← (← j.getField "generation").asNat
  let parent_id ← (← j.getField "parent_id").asOptStr
  let mutation_type ← (← j.getField "mutation_type").asOptStr
  some { id := id, content := content, fitness := fitness, novelty := novelty,
         generation := generation, parent_id := parent_id,
         mutation_type := mutation_type }

/-- `asdict(stats)` serialized by `json.dump`. -/
def statsJson (s : GenerationStats) : Json :=
  .obj [("generation", .num (s.generation : ℚ)), ("best_fitness", .num s.best_fitness),
        ("avg_fitness", .num s.avg_fitness), ("diversity", .num s.diversity),
        ("population_size", .num (s.population_size : ℚ)),
        ("improvements", .num (s.improvements : ℚ))]

/-- `GenerationStats(**h)` applied to a parsed JSON dictionary. -/
def statsOfJson (j : Json) : Option GenerationStats := do
  let generation ← (← j.getField "generation").asNat
  let best_fitness ← (← j.getField "best_fitness").asRat
  let avg_fitness ← (← j.getField "avg_fitness").asRat
  let diversity ← (← j.getField "diversity").asRat
  let population_size ← (← j.getField "population_size").asNat
  let improvements ← (← j.getField "improvements").asNat
  some { generation := generation, best_fitness := best_fitness,
         avg_fitness := avg_fitness, diversity := diversity,
         population_size := population_size, improvements := improvements }

/-- The checkpoint document written by `run_evolution` and
`continue_evolution` (same shape in both). -/
def checkpointJson (task_id : String) (e : SimpleEvolver) : Json :=
  .obj [("task_id", .str task_id),
        ("generation", .num (e.generation : ℚ)),
        ("best_candidate",
          match e.best_candidate with
          | none => .null
          | some c => candidateJson c),
        ("islands", .arr (e.islands.map fun isl => .arr (isl.map candidateJson))),
        ("history", .arr (e.history.map statsJson))]

/-- The state-reconstruction part of `continue_evolution` (lines 373-388):
build a fresh `SimpleEvolver` whose seed is the checkpointed best
candidate's content and whose evaluation criteria is the fixed string
`"Continue evolution"`, then overwrite generation, islands, best
candidate and history from the checkpoint. -/
def reconstructEvolver (o : Oracle) (chk : Json) (k : ℕ) :
    Option (SimpleEvolver × ℕ) := do
  let bc ← chk.getField "best_candidate"
  let seed ← if bc.truthy then (← bc.getField "content").asStr else some ""
  let islandsJ ← (← chk.getField "islands").asArr
  let islandLists ← islandsJ.mapM Json.asArr
  let population_size := (islandLists.map List.length).sum
  let num_islands := islandsJ.length
  let ek := SimpleEvolver.make o seed "Continue evolution" population_size
    num_islands "openai/gpt-4.1-mini" "openai/gpt-4.1-mini" true (6/10) (4/10) k
  let generation ← (← chk.getField "generation").asNat
  let islands ← islandLists.mapM fun isl => isl.mapM candidateOfJson
  let best ← if bc.truthy then do some (some (← candidateOfJson bc))
             else some none
  let historyJ ← (← chk.getField "history").asArr
  let history ← historyJ.mapM statsOfJson
  some ({ ek.1 with
            generation := generation
            islands := islands
            best_candidate := best
            history := history }, ek.2)

/-- The `run_evolution` driver restricted to its engine effects: build the
evolver from the config and run `max_generations` generations.  The
checkpoint written after each generation is `checkpointJson` of the
current state. -/
def run_evolution (o : Oracle) (seed evaluation_criteria : String)
    (max_generations population_size num_islands : ℕ) (elitism : Bool)
    (crossover_rate mutation_rate : ℚ) : Option (SimpleEvolver × ℕ) :=
  let ek := SimpleEvolver.make o seed evaluation_criteria population_size
    num_islands "openai/gpt-4.1-mini" "openai/gpt-4.1-mini" elitism
    crossover_rate mutation_rate 0
  SimpleEvolver.run_generations o max_generations ek.1 ek.2

/-- The run of Scenario A: seed `"hello world"`, population_size 4,
num_islands 2, max_generations 1, evaluation criteria `"hello"`, all
remaining config fields at their defaults. -/
def scenarioA (o : Oracle) : Option (SimpleEvolver × ℕ) :=
  run_evolution o "hello world" "hello" 1 4 2 true (6/10) (4/10)

/-- Defined from the claim's words, for comparison with the source's
`SimpleEvolver.crossover`: split EACH parent at the midpoint of ITS OWN
word sequence and concatenate parent 1's first half with parent 2's
second half. -/
def crossover_content_claim (parent1 parent2 : Candidate) : String :=
  let words1 := pyWords parent1.content
  let words2 := pyWords parent2.content
  pyJoin (words1.take (words1.length / 2) ++ words2.drop (words2.length / 2))

/-- An oracle whose discrete draws are all 0 and whose real draws are all 0. -/
def oracle0 : Oracle := { ints := fun _ => 0, reals := fun _ => 0 }

/-- An oracle whose real draws are all 1/2 (so `random.random() < 0.6`
holds at every reproduction decision). -/
def oracleHalf : Oracle := { ints := fun _ => 0, reals := fun _ => 1/2 }

/-- An oracle whose real draws are all 1 (so crossover is never selected). -/
def oracleMut : Oracle := { ints := fun _ => 0, reals := fun _ => 1 }

/-- A test fixture: an engine state with the given islands, sizing
fields, generation counter and elitism flag. -/
def testState (islands : List (List Candidate)) (pop n gen : ℕ)
    (elitism : Bool) : SimpleEvolver :=
  { seed := "", evaluation_criteria := "", population_size := pop,
    num_islands := n, mutation_model := "", evaluation_model := "",
    elitism := elitism, crossover_rate := 6/10, mutation_rate := 4/10,
    islands := islands, generation := gen, best_candidate := none,
    history := [], total_evaluations := 0 }

/-- Fixtures for claim C6: a six-word parent and a two-word parent. -/
def parent6a : Candidate := { id := "p1", content := "a b c d e f" }

/-- Second fixture parent for claim C6. -/
def parent6b : Candidate := { id := "p2", content := "x y" }

/-- Fixture candidates for claim C8. -/
def cand8a : Candidate := { id := "a", content := "a" }

/-- Second fixture candidate for claim C8. -/
def cand8b : Candidate := { id := "b", content := "b" }

/-- Relation instances for the fitness-descending sort. -/
instance : IsTotal Candidate (fun a b => b.fitness ≤ a.fitness) :=
  ⟨fun a b => le_total b.fitness a.fitness⟩

instance : IsTrans Candidate (fun a b => b.fitness ≤ a.fitness) :=
  ⟨fun _ _ _ h1 h2 => le_trans h2 h1⟩

instance : IsTotal Candidate
    (fun a b => b.fitness + b.novelty * (1/2) ≤ a.fitness + a.novelty * (1/2)) :=
  ⟨fun _ _ => le_total _ _⟩

instance : IsTrans Candidate
    (fun a b => b.fitness + b.novelty * (1/2) ≤ a.fitness + a.novelty * (1/2)) :=
  ⟨fun _ _ _ h1 h2 => le_trans h2 h1⟩

/-- Fixture for claim C9's counterexample: a unique-content candidate with
high fitness. -/
def cand9x : Candidate := { id := "x", content := "p q", fitness := 9/10 }

/-- Fixture for claim C9's counterexample: low fitness, duplicated content. -/
def cand9y : Candidate := { id := "y", content := "a b", fitness := 1/2 }

/-- Fixture for claim C9's counterexample: the duplicate of `cand9y`. -/
def cand9z : Candidate := { id := "z", content := "a b", fitness := 1/2 }

/-- Fixture state for claim C9's counterexample. -/
def state9 : SimpleEvolver := testState [[cand9x, cand9y, cand9z]] 3 1 0 true

/-- Fixture candidate generator for claim C9's witness. -/
def candW (i : ℕ) : Candidate :=
  { id := toString i, content := toString i, fitness := (i : ℚ)/100 }

/-- Fixture state with eleven candidates for claim C9's witness. -/
def state9w : SimpleEvolver := testState [(List.range 11).map candW] 11 1 0 true

/-- Fixture for claim C9's witness: the excluded lowest-ranked candidate
(after the novelty write). -/
def candW9a : Candidate := { id := "0", content := "0", fitness := 0, novelty := 1 }

/-- Fixture for claim C9's witness: the top-ranked front member (after the
novelty write). -/
def candW9b : Candidate :=
  { id := "10", content := "10", fitness := 10/100, novelty := 1 }

/-- The evolver reconstructed from the empty test checkpoint (claim C10's
witness value). -/
def resumedW : SimpleEvolver :=
  (SimpleEvolver.make oracle0 "" "Continue evolution" 0 0 "openai/gpt-4.1-mini"
    "openai/gpt-4.1-mini" true (6/10) (4/10) 0).1

/-- Fixture candidate for claim C7. -/
def cand7a : Candidate := { id := "a7", content := "x" }

/-- Second fixture candidate for claim C7. -/
def cand7b : Candidate := { id := "b7", content := "y" }

/-- The evaluated form of `cand7a` (base score 1/2). -/
def cand7a' : Candidate := { id := "a7", content := "x", fitness := 1/2 }

/-- The evaluated form of `cand7b`. -/
def cand7b' : Candidate := { id := "b7", content := "y", fitness := 1/2 }

/-- Single-island fixture state at generation 4 (claim C7's counterexample). -/
def state7c : SimpleEvolver := testState [[cand7a]] 1 1 4 true

/-- Two-island fixture state at generation 4 (claim C7's witness). -/
def state7w : SimpleEvolver := testState [[cand7a], [cand7b]] 2 2 4 true

/-- The statistics record of the witness generation step for claim C7. -/
def st7res : GenerationStats :=
  { generation := 5, best_fitness := 1/2, avg_fitness := 1/2, diversity := 1/2,
    population_size := 4, improvements := 1 }

/-- The state after the witness generation step for claim C7. -/
def e7res : SimpleEvolver :=
  { state7w with
      generation := 5
      islands := [[cand7a', cand7b'], [cand7b', cand7a']]
      best_candidate := some cand7a'
      history := [st7res]
      total_evaluations := 2 }

/-- Fixture candidate for claim C4's witness. -/
def cand4a : Candidate := { id := "a4", content := "z" }

/-- The evaluated form of `cand4a`. -/
def cand4a' : Candidate := { id := "a4", content := "z", fitness := 1/2 }

/-- Fixture state for claim C4's witness. -/
def state4w : SimpleEvolver := testState [[cand4a]] 1 1 0 true

/-- The statistics record of the witness step for claim C4. -/
def st4res : GenerationStats :=
  { generation := 1, best_fitness := 1/2, avg_fitness := 1/2, diversity := 1,
    population_size := 1, improvements := 1 }

/-- The state after the witness step for claim C4. -/
def e4res : SimpleEvolver :=
  { state4w with
      generation := 1
      islands := [[cand4a']]
      best_candidate := some cand4a'
      history := [st4res]
      total_evaluations := 1 }

/-- The evaluated initial candidate of claim C3's witness run. -/
def cand3a' : Candidate :=
  { id := "gen0_island0_0", content := "", fitness := 1/2 }

/-- The statistics record of claim C3's witness run. -/
def st3res : GenerationStats :=
  { generation := 1, best_fitness := 1/2, avg_fitness := 1/2, diversity := 1,
    population_size := 1, improvements := 1 }

/-- The final state of claim C3's witness run (one generation, one island
of one candidate). -/
def e3res : SimpleEvolver :=
  { seed := "", evaluation_criteria := "", population_size := 1,
    num_islands := 1, mutation_model := "m", evaluation_model := "m",
    elitism := true, crossover_rate := 6/10, mutation_rate := 4/10,
    islands := [[cand3a']], generation := 1, best_candidate := some cand3a',
    history := [st3res], total_evaluations := 1 }

/-- A fold whose function appends exactly one candidate per step grows the
accumulator's length by the length of the folded list. -/
theorem foldl_one_more {β : Type} (g : List Candidate × ℕ → β → List Candidate × ℕ)
    (hg : ∀ st b, ((g st b).1).length = st.1.length + 1) :
    ∀ (l : List β) (st : List Candidate × ℕ),
      ((l.foldl g st).1).length = st.1.length + l.length := by
  intro l
  induction l with
  | nil => intro st; simp
  | cons x xs ih =>
    intro st
    rw [List.foldl_cons, ih, hg]
    simp only [List.length_cons]
    omega

/-- Each initial island has exactly `population_size // num_islands`
candidates. -/
theorem create_initial_population_length (o : Oracle) (seed : String)
    (pop n k : ℕ) :
    (SimpleEvolver.create_initial_population o seed pop n k).1.length = pop / n := by
  unfold SimpleEvolver.create_initial_population
  rw [foldl_one_more]
  · simp
  · intro st b
    rcases hif : (if b > 0 then SimpleEvolver.mutate_text o st.2 seed else (seed, st.2)) with
      ⟨content, k2⟩
    simp [hif]

/-- A fold whose function appends one island of length `len1` per step. -/
theorem foldl_island_build {β : Type}
    (g : List (List Candidate) × ℕ → β → List (List Candidate) × ℕ) (len1 : ℕ)
    (hg : ∀ st b, ∃ isl, (g st b).1 = st.1 ++ [isl] ∧ isl.length = len1) :
    ∀ (l : List β) (st : List (List Candidate) × ℕ),
      ((l.foldl g st).1).length = st.1.length + l.length ∧
      ∀ isl ∈ (l.foldl g st).1, isl ∈ st.1 ∨ isl.length = len1 := by
  intro l
  induction l with
  | nil => intro st; exact ⟨by simp, fun isl h => Or.inl h⟩
  | cons x xs ih =>
    intro st
    rw [List.foldl_cons]
    obtain ⟨isl, heq, hlen⟩ := hg st x
    refine ⟨?_, ?_⟩
    · rw [(ih (g st x)).1, heq]
      simp
      omega
    · intro isl2 hmem
      rcases (ih (g st x)).2 isl2 hmem with h | h
      · rw [heq] at h
        rcases List.mem_append.mp h with h | h
        · exact Or.inl h
        · right
          rw [List.mem_singleton.mp h]
          exact hlen
      · exact Or.inr h

/-- Claim C2, amended: the constructor never fails.  For every input it
returns normally, building `num_islands` islands of exactly
`population_size // num_islands` candidates each (empty islands when
`population_size < num_islands`, and no islands at all when
`num_islands = 0`); no configuration error is signalled. -/
theorem c2_make_never_fails (o : Oracle) (seed crit mm em : String)
    (pop n : ℕ) (el : Bool) (cr mr : ℚ) (k : ℕ) :
    (SimpleEvolver.make o seed crit pop n mm em el cr mr k).1.islands.length = n ∧
    ∀ isl ∈ (SimpleEvolver.make o seed crit pop n mm em el cr mr k).1.islands,
      isl.length = pop / n := by
  unfold SimpleEvolver.make
  have hg : ∀ (st : List (List Candidate) × ℕ) (b : ℕ), ∃ isl,
      ((fun (acc : List (List Candidate) × ℕ) (_ : ℕ) =>
        (acc.1 ++ [(SimpleEvolver.create_initial_population o seed pop n acc.2).1],
         (SimpleEvolver.create_initial_population o seed pop n acc.2).2)) st b).1
        = st.1 ++ [isl] ∧ isl.length = pop / n := by
    intro st b
    exact ⟨(SimpleEvolver.create_initial_population o seed pop n st.2).1, rfl,
      create_initial_population_length o seed pop n st.2⟩
  have h := foldl_island_build _ (pop / n) hg (List.range n) ([], k)
  constructor
  · simpa using h.1
  · intro isl hmem
    rcases h.2 isl (by simpa using hmem) with h' | h'
    · simp at h'
    · exact h'

unseal Rat.add Rat.inv Rat.mul Rat.sub in
/-- Claim C2, counterexample to the claim as stated: with
`population_size = 1 < 2 = num_islands` (a sizing the claim says must
fail with a configuration error and no partial islands), the constructor
returns normally and builds two empty islands. -/
theorem c2_counterexample :
    (SimpleEvolver.make oracle0 "s" "c" 1 2 "m" "e" true (6/10) (4/10) 0).1.islands
      = [[], []] := by decide

unseal Rat.add Rat.inv Rat.mul Rat.sub in
/-- Claim C1 (code bug): on the Scenario A config (seed `"hello world"`,
population_size 4, num_islands 2, max_generations 1, criteria
`"hello"`), the draw sequence whose first reproduction draw is 1/2
selects crossover (1/2 < 0.6), and `random.sample(island[:1], 2)` then
raises ValueError: the run crashes instead of completing. -/
theorem c1_scenarioA_crash : scenarioA oracleHalf = none := by decide

/-- Claim C6, counterexample to the claim as stated: the source splits
BOTH parents at the midpoint of the SHORTER word sequence
(`min(len1, len2) // 2 = 1`), yielding `"a y"`, while the claimed
per-parent midpoints would yield `"a b c y"`. -/
theorem c6_counterexample :
    (SimpleEvolver.crossover (testState [] 0 0 0 true) oracle0 0 parent6a parent6b).1.content
        = "a y" ∧
    crossover_content_claim parent6a parent6b = "a b c y" ∧
    ("a y" : String) ≠ "a b c y" :=
  ⟨rfl, rfl, by decide⟩

/-- Claim C6, amended: crossover splits both parents at the midpoint of
the SHORTER parent's word sequence, concatenating parent 1's words below
that point with parent 2's words from that point on, and returns one
child with `mutation_type = "crossover"`, `parent_id` = parent 1's id,
and the current generation number. -/
theorem c6_crossover_shorter_midpoint (self : SimpleEvolver) (o : Oracle)
    (k : ℕ) (p1 p2 : Candidate) :
    ((SimpleEvolver.crossover self o k p1 p2).1.content =
      pyJoin ((pyWords p1.content).take
          (min (pyWords p1.content).length (pyWords p2.content).length / 2) ++
        (pyWords p2.content).drop
          (min (pyWords p1.content).length (pyWords p2.content).length / 2))) ∧
    (SimpleEvolver.crossover self o k p1 p2).1.mutation_type = some "crossover" ∧
    (SimpleEvolver.crossover self o k p1 p2).1.parent_id = some p1.id ∧
    (SimpleEvolver.crossover self o k p1 p2).1.generation = self.generation :=
  ⟨rfl, rfl, rfl, rfl⟩

unseal Rat.add Rat.inv Rat.mul Rat.sub in
/-- Claim C8, counterexample to the claim as stated: `get_pareto_front`
writes the recomputed novelty into the island candidates in place (Python
aliasing), so a state whose candidates have novelty 0 has novelty 1 on
both island members after the call. -/
theorem c8_counterexample :
    ((testState [[cand8a], [cand8b]] 2 2 0 true).islands.map fun isl =>
        isl.map Candidate.novelty) = [[0], [0]] ∧
    ((SimpleEvolver.get_pareto_front (testState [[cand8a], [cand8b]] 2 2 0 true)).1.islands.map
        fun isl => isl.map Candidate.novelty) = [[1], [1]] := by decide

/-- Claim C8, amended: `get_pareto_front` preserves every island's
membership and order and every candidate field EXCEPT novelty (id,
content, fitness, generation, parent_id, mutation_type); the novelty
field of every island candidate is overwritten with the recomputed
value. -/
theorem c8_pareto_frame (e : SimpleEvolver) :
    ((SimpleEvolver.get_pareto_front e).1.islands.map fun isl =>
        isl.map fun c =>
          (c.id, c.content, c.fitness, c.generation, c.parent_id, c.mutation_type))
      = (e.islands.map fun isl =>
        isl.map fun c =>
          (c.id, c.content, c.fitness, c.generation, c.parent_id, c.mutation_type)) ∧
    (SimpleEvolver.get_pareto_front e).1.islands.length = e.islands.length ∧
    ((SimpleEvolver.get_pareto_front e).1.islands.map fun isl => isl.length)
      = e.islands.map fun isl => isl.length := by
  refine ⟨?_, ?_, ?_⟩ <;>
    simp [SimpleEvolver.get_pareto_front, SimpleEvolver.write_novelty,
      List.map_map, Function.comp]

/-- Decoding a serialized non-negative integer recovers it. -/
theorem asNat_natCast (n : ℕ) : Json.asNat (.num (n : ℚ)) = some n := by
  simp [Json.asNat]

/-- Decoding a serialized optional string recovers it. -/
theorem asOptStr_optStrJson (p : Option String) :
    (optStrJson p).asOptStr = some p := by
  cases p <;> rfl

/-- Candidate serialization round-trips. -/
theorem candidateOfJson_candidateJson (c : Candidate) :
    candidateOfJson (candidateJson c) = some c := by
  have h1 : (candidateJson c).getField "id" = some (.str c.id) := rfl
  have h2 : (candidateJson c).getField "content" = some (.str c.content) := rfl
  have h3 : (candidateJson c).getField "fitness" = some (.num c.fitness) := rfl
  have h4 : (candidateJson c).getField "novelty" = some (.num c.novelty) := rfl
  have h5 : (candidateJson c).getField "generation"
      = some (.num (c.generation : ℚ)) := rfl
  have h6 : (candidateJson c).getField "parent_id"
      = some (optStrJson c.parent_id) := rfl
  have h7 : (candidateJson c).getField "mutation_type"
      = some (optStrJson c.mutation_type) := rfl
  simp [candidateOfJson, h1, h2, h3, h4, h5, h6, h7, Json.asStr, Json.asRat,
    asNat_natCast, asOptStr_optStrJson]

/-- Generation statistics serialization round-trips. -/
theorem statsOfJson_statsJson (s : GenerationStats) :
    statsOfJson (statsJson s) = some s := by
  have h1 : (statsJson s).getField "generation"
      = some (.num (s.generation : ℚ)) := rfl
  have h2 : (statsJson s).getField "best_fitness" = some (.num s.best_fitness) := rfl
  have h3 : (statsJson s).getField "avg_fitness" = some (.num s.avg_fitness) := rfl
  have h4 : (statsJson s).getField "diversity" = some (.num s.diversity) := rfl
  have h5 : (statsJson s).getField "population_size"
      = some (.num (s.population_size : ℚ)) := rfl
  have h6 : (statsJson s).getField "improvements"
      = some (.num (s.improvements : ℚ)) := rfl
  simp [statsOfJson, h1, h2, h3, h4, h5, h6, Json.asRat, asNat_natCast]

/-- Unwrapping a list of serialized JSON arrays recovers the list. -/
theorem mapM_asArr_arr (l : List (List Json)) :
    (l.map Json.arr).mapM Json.asArr = some l := by
  induction l with
  | nil => rfl
  | cons x xs ih =>
    simp only [List.map_cons, List.mapM_cons, ih, Json.asArr]
    rfl

/-- Candidate-list serialization round-trips. -/
theorem mapM_candidate_roundtrip (l : List Candidate) :
    (l.map candidateJson).mapM candidateOfJson = some l := by
  induction l with
  | nil => rfl
  | cons x xs ih =>
    simp only [List.map_cons, List.mapM_cons, ih, candidateOfJson_candidateJson]
    rfl

/-- Island-list serialization round-trips. -/
theorem mapM_islands_roundtrip (l : List (List Candidate)) :
    ((l.map fun isl => isl.map candidateJson).mapM fun isl =>
      isl.mapM candidateOfJson) = some l := by
  induction l with
  | nil => rfl
  | cons x xs ih =>
    simp only [List.map_cons, List.mapM_cons, ih, mapM_candidate_roundtrip]
    rfl

/-- History serialization round-trips. -/
theorem mapM_stats_roundtrip (l : List GenerationStats) :
    (l.map statsJson).mapM statsOfJson = some l := by
  induction l with
  | nil => rfl
  | cons x xs ih =>
    simp only [List.map_cons, List.mapM_cons, ih, statsOfJson_statsJson]
    rfl

/-- Claim C5: checkpoint round-trip is lossless.  The checkpoint written
for a task id carries that task id, and the state reconstruction of
`continue_evolution` applied to the saved checkpoint recovers the
generation counter, the best candidate, every candidate of every island
in order, and every history record, equal to the original. -/
theorem c5_checkpoint_roundtrip (o : Oracle) (t : String) (e : SimpleEvolver)
    (k : ℕ) :
    (checkpointJson t e).getField "task_id" = some (.str t) ∧
    (reconstructEvolver o (checkpointJson t e) k).map
        (fun p => (p.1.generation, p.1.best_candidate, p.1.islands, p.1.history))
      = some (e.generation, e.best_candidate, e.islands, e.history) := by
  have h1 : (checkpointJson t e).getField "best_candidate"
      = some (match e.best_candidate with
              | none => Json.null
              | some c => candidateJson c) := rfl
  have h2 : (checkpointJson t e).getField "islands"
      = some (.arr (e.islands.map fun isl => .arr (isl.map candidateJson))) := rfl
  have h3 : (checkpointJson t e).getField "generation"
      = some (.num (e.generation : ℚ)) := rfl
  have h4 : (checkpointJson t e).getField "history"
      = some (.arr (e.history.map statsJson)) := rfl
  have e1 : List.mapM.loop Json.asArr
      (List.map (fun isl => Json.arr (List.map candidateJson isl)) e.islands) []
      = some (e.islands.map fun isl => isl.map candidateJson) := by
    have h := mapM_asArr_arr (e.islands.map fun isl => isl.map candidateJson)
    simpa [List.map_map, List.mapM] using h
  have e2 : List.mapM.loop (fun isl => List.mapM.loop candidateOfJson isl [])
      (e.islands.map fun isl => isl.map candidateJson) []
      = some e.islands := by
    have h := mapM_islands_roundtrip e.islands
    simpa [List.mapM] using h
  have e3 : List.mapM.loop statsOfJson (List.map statsJson e.history) []
      = some e.history := by
    have h := mapM_stats_roundtrip e.history
    simpa [List.mapM] using h
  refine ⟨rfl, ?_⟩
  unfold reconstructEvolver
  cases hbc : e.best_candidate with
  | none =>
    simp [h1, h2, h3, h4, hbc, Json.truthy, Json.asArr, e1, e2, e3,
      asNat_natCast]
  | some c =>
    have hco : (candidateJson c).getField "content" = some (.str c.content) := rfl
    have htr : (candidateJson c).truthy = true := rfl
    simp [h1, h2, h3, h4, hbc, htr, hco, Json.asStr, Json.asArr, e1, e2, e3,
      asNat_natCast, candidateOfJson_candidateJson]

/-- Every produced value of an option bind satisfies a predicate holding
of every value of the continuation. -/
theorem option_bind_forall {α β : Type} (x : Option α) (f : α → Option β)
    (P : β → Prop) (hf : ∀ a, ∀ b ∈ f a, P b) : ∀ b ∈ x.bind f, P b := by
  intro b hb
  cases x with
  | none => cases hb
  | some a => exact hf a b hb

/-- Every successful state reconstruction carries the fixed evaluation
criteria string. -/
theorem reconstruct_criteria (o : Oracle) (chk : Json) (k : ℕ) :
    ∀ p ∈ reconstructEvolver o chk k,
      p.1.evaluation_criteria = "Continue evolution" := by
  unfold reconstructEvolver
  dsimp only []
  repeat
    first
      | (refine option_bind_forall _ _ _ ?_; intro _)
      | split
      | (intro p hp
         rw [Option.mem_def, Option.some.injEq] at hp
         rw [← hp]
         rfl)

/-- Claim C10: state reconstruction on resume installs the fixed
evaluation criteria `"Continue evolution"`, regardless of the checkpoint
contents, so every candidate evaluated after a resume is scored against
that fixed string rather than the original run's criteria. -/
theorem c10_resume_criteria (o : Oracle) (chk : Json) (k : ℕ)
    (e : SimpleEvolver) (k' : ℕ)
    (h : reconstructEvolver o chk k = some (e, k')) :
    e.evaluation_criteria = "Continue evolution" ∧
    ∀ c, SimpleEvolver.evaluate e c
      = SimpleEvolver.evaluate_with "Continue evolution" c := by
  have hcrit : e.evaluation_criteria = "Continue evolution" :=
    reconstruct_criteria o chk k (e, k') h
  exact ⟨hcrit, fun c => by rw [SimpleEvolver.evaluate, hcrit]⟩

/-- Witness for claim C10: reconstructing from a concrete saved
checkpoint succeeds and yields the fixed criteria. -/
theorem c10_witness :
    reconstructEvolver oracle0 (checkpointJson "t" (testState [] 0 0 0 true)) 0
        = some (resumedW, 0) ∧
    resumedW.evaluation_criteria = "Continue evolution" := by
  have h : reconstructEvolver oracle0 (checkpointJson "t" (testState [] 0 0 0 true)) 0
      = some (resumedW, 0) := by rfl
  exact ⟨h, (c10_resume_criteria oracle0 _ 0 resumedW 0 h).1⟩

unseal Rat.add Rat.inv Rat.mul Rat.sub in
/-- Claim C9, counterexample to the claim as stated: in a three-candidate
state the returned front is the whole population, and it contains both a
dominating candidate (fitness 9/10, novelty 1) and a candidate with
strictly lower fitness AND strictly lower novelty (fitness 1/2, novelty
1/2), so the front is not free of internally dominated members. -/
theorem c9_counterexample :
    ({ cand9x with novelty := 1 } ∈ (SimpleEvolver.get_pareto_front state9).2) ∧
    ({ cand9y with novelty := 1/2 } ∈ (SimpleEvolver.get_pareto_front state9).2) ∧
    ({ cand9y with novelty := (1:ℚ)/2 }).fitness
      < ({ cand9x with novelty := (1:ℚ) }).fitness ∧
    ({ cand9y with novelty := (1:ℚ)/2 }).novelty
      < ({ cand9x with novelty := (1:ℚ) }).novelty := by decide

/-- Claim C9, amended: the returned front has size
`min(10, total population size)`, and no candidate IN the front has
strictly lower fitness and strictly lower novelty than a candidate
EXCLUDED from the front (the population being the post-call, novelty
updated candidates).  Dominated pairs inside the front itself are
possible, because the front is simply the top 10 by
`fitness + 0.5 * novelty`. -/
theorem c9_pareto_front (e : SimpleEvolver) :
    (SimpleEvolver.get_pareto_front e).2.length
        = min 10 (SimpleEvolver.all_candidates e.islands).length ∧
    ∀ b ∈ (SimpleEvolver.get_pareto_front e).2,
      ∀ a ∈ SimpleEvolver.all_candidates (SimpleEvolver.get_pareto_front e).1.islands,
        a ∉ (SimpleEvolver.get_pareto_front e).2 →
          ¬(b.fitness < a.fitness ∧ b.novelty < a.novelty) := by
  have hupd : SimpleEvolver.all_candidates (SimpleEvolver.get_pareto_front e).1.islands
      = (SimpleEvolver.all_candidates e.islands).map
          (SimpleEvolver.write_novelty (SimpleEvolver.all_candidates e.islands)) :=
    (List.map_flatten
      (SimpleEvolver.write_novelty (SimpleEvolver.all_candidates e.islands))
      e.islands).symm
  constructor
  · show ((List.insertionSort _ ((SimpleEvolver.all_candidates e.islands).map _)).take 10).length = _
    rw [List.length_take, List.length_insertionSort, List.length_map]
  · intro b hb a ha hnf habs
    rw [hupd] at ha
    have hmem : a ∈ List.insertionSort
        (fun a b => b.fitness + b.novelty * (1/2) ≤ a.fitness + a.novelty * (1/2))
        ((SimpleEvolver.all_candidates e.islands).map
          (SimpleEvolver.write_novelty (SimpleEvolver.all_candidates e.islands))) :=
      (List.perm_insertionSort _ _).mem_iff.mpr ha
    have hsor : List.Pairwise
        (fun a b => b.fitness + b.novelty * (1/2) ≤ a.fitness + a.novelty * (1/2))
        (List.insertionSort
          (fun a b => b.fitness + b.novelty * (1/2) ≤ a.fitness + a.novelty * (1/2))
          ((SimpleEvolver.all_candidates e.islands).map
            (SimpleEvolver.write_novelty (SimpleEvolver.all_candidates e.islands)))) :=
      List.sorted_insertionSort _ _
    set sorted := List.insertionSort
        (fun a b => b.fitness + b.novelty * (1/2) ≤ a.fitness + a.novelty * (1/2))
        ((SimpleEvolver.all_candidates e.islands).map
          (SimpleEvolver.write_novelty (SimpleEvolver.all_candidates e.islands))) with hs
    have hb' : b ∈ List.take 10 sorted := hb
    have hnf' : a ∉ List.take 10 sorted := hnf
    rw [← List.take_append_drop 10 sorted] at hmem hsor
    have hdrop : a ∈ List.drop 10 sorted := by
      rcases List.mem_append.mp hmem with h | h
      · exact absurd h hnf'
      · exact h
    have hrel := (List.pairwise_append.mp hsor).2.2 b hb' a hdrop
    obtain ⟨hf, hn⟩ := habs
    have hhalf : b.novelty * (1/2) < a.novelty * (1/2) := by linarith
    linarith

unseal Rat.add Rat.inv Rat.mul Rat.sub in
/-- Witness for claim C9: in the eleven-candidate fixture the top-ranked
member is in the front, the lowest-ranked candidate is in the post-call
population but excluded from the front, and the front member is not
strictly dominated by it. -/
theorem c9_witness :
    (candW9b ∈ (SimpleEvolver.get_pareto_front state9w).2) ∧
    (candW9a ∈ SimpleEvolver.all_candidates
      (SimpleEvolver.get_pareto_front state9w).1.islands) ∧
    (candW9a ∉ (SimpleEvolver.get_pareto_front state9w).2) ∧
    ¬(candW9b.fitness < candW9a.fitness ∧ candW9b.novelty < candW9a.novelty) := by
  have hb : candW9b ∈ (SimpleEvolver.get_pareto_front state9w).2 := by decide
  have ha : candW9a ∈ SimpleEvolver.all_candidates
      (SimpleEvolver.get_pareto_front state9w).1.islands := by decide
  have hn : candW9a ∉ (SimpleEvolver.get_pareto_front state9w).2 := by decide
  exact ⟨hb, ha, hn, (c9_pareto_front state9w).2 candW9b hb candW9a ha hn⟩

/-- Children created by the reproduction loop carry the sentinel fitness 0
(the `Candidate` constructions in `_crossover` and `_mutate` leave the
fitness field at its default). -/
theorem make_child_fitness (self : SimpleEvolver) (o : Oracle) (k : ℕ)
    (island : List Candidate) (ck : Candidate × ℕ)
    (h : SimpleEvolver.make_child self o k island = some ck) :
    ck.1.fitness = 0 := by
  unfold SimpleEvolver.make_child at h
  dsimp only [] at h
  split at h
  · split at h
    · cases h
    · cases h
      rfl
  · split at h
    · cases h
    · cases h
      rfl

/-- Length of the island produced by a successful offspring loop. -/
theorem fill_island_length (self : SimpleEvolver) (o : Oracle)
    (island : List Candidate) :
    ∀ (fuel target : ℕ) (acc : List Candidate) (k : ℕ)
      (r : List Candidate) (k' : ℕ),
      SimpleEvolver.fill_island self o island fuel target acc k = some (r, k') →
      r.length = max acc.length target := by
  intro fuel
  induction fuel with
  | zero =>
    intro target acc k r k' h
    simp only [SimpleEvolver.fill_island] at h
    split at h
    · cases h
    · rw [Option.some.injEq, Prod.mk.injEq] at h
      obtain ⟨rfl, rfl⟩ := h
      omega
  | succ n ih =>
    intro target acc k r k' h
    simp only [SimpleEvolver.fill_island] at h
    split at h
    · split at h
      · cases h
      · have hlen := ih target _ _ r k' h
        simp only [List.length_append, List.length_cons, List.length_nil] at hlen
        omega
    · rw [Option.some.injEq, Prod.mk.injEq] at h
      obtain ⟨rfl, rfl⟩ := h
      omega

/-- The offspring loop only appends: its result extends the accumulator. -/
theorem fill_island_prefix (self : SimpleEvolver) (o : Oracle)
    (island : List Candidate) :
    ∀ (fuel target : ℕ) (acc : List Candidate) (k : ℕ)
      (r : List Candidate) (k' : ℕ),
      SimpleEvolver.fill_island self o island fuel target acc k = some (r, k') →
      ∃ t, r = acc ++ t := by
  intro fuel
  induction fuel with
  | zero =>
    intro target acc k r k' h
    simp only [SimpleEvolver.fill_island] at h
    split at h
    · cases h
    · rw [Option.some.injEq, Prod.mk.injEq] at h
      obtain ⟨rfl, rfl⟩ := h
      exact ⟨[], by simp⟩
  | succ n ih =>
    intro target acc k r k' h
    simp only [SimpleEvolver.fill_island] at h
    split at h
    · split at h
      · cases h
      · obtain ⟨t, ht⟩ := ih target _ _ r k' h
        exact ⟨_, by rw [ht, List.append_assoc]⟩
    · rw [Option.some.injEq, Prod.mk.injEq] at h
      obtain ⟨rfl, rfl⟩ := h
      exact ⟨[], by simp⟩

/-- Every member of the island produced by the offspring loop is either a
carried-over accumulator member or a fresh, unevaluated child. -/
theorem fill_island_members (self : SimpleEvolver) (o : Oracle)
    (island : List Candidate) :
    ∀ (fuel target : ℕ) (acc : List Candidate) (k : ℕ)
      (r : List Candidate) (k' : ℕ),
      SimpleEvolver.fill_island self o island fuel target acc k = some (r, k') →
      ∀ x ∈ r, x ∈ acc ∨ x.fitness = 0 := by
  intro fuel
  induction fuel with
  | zero =>
    intro target acc k r k' h
    simp only [SimpleEvolver.fill_island] at h
    split at h
    · cases h
    · rw [Option.some.injEq, Prod.mk.injEq] at h
      obtain ⟨rfl, rfl⟩ := h
      exact fun x hx => Or.inl hx
  | succ n ih =>
    intro target acc k r k' h
    simp only [SimpleEvolver.fill_island] at h
    split at h
    · split at h
      · cases h
      · intro x hx
        rename_i ck hck
        rcases ih target _ _ r k' h x hx with hin | hzero
        · rcases List.mem_append.mp hin with hacc | hnew
          · exact Or.inl hacc
          · right
            rw [List.mem_singleton.mp hnew]
            exact make_child_fitness self o _ island ck hck
        · exact Or.inr hzero
    · rw [Option.some.injEq, Prod.mk.injEq] at h
      obtain ⟨rfl, rfl⟩ := h
      exact fun x hx => Or.inl hx

/-- The evaluation pass preserves the island's length. -/
theorem eval_island_length (criteria : String) (island : List Candidate) :
    (SimpleEvolver.eval_island criteria island).length = island.length := by
  simp [SimpleEvolver.eval_island]

/-- A candidate whose fitness is not the sentinel passes through the
evaluation pass unchanged. -/
theorem mem_eval_island_of_ne_zero (criteria : String) (island : List Candidate)
    (c : Candidate) (hc : c ∈ island) (hfit : c.fitness ≠ 0) :
    c ∈ SimpleEvolver.eval_island criteria island := by
  unfold SimpleEvolver.eval_island
  refine List.mem_map.mpr ⟨c, hc, ?_⟩
  simp [hfit]

/-- The sorted island is a permutation of its input. -/
theorem sort_island_perm (island : List Candidate) :
    List.Perm (SimpleEvolver.sort_island island) island :=
  List.perm_insertionSort _ island

/-- The head of a non-empty sorted island bounds every member's fitness. -/
theorem sort_island_head_bound (island : List Candidate) (top : Candidate)
    (rest : List Candidate) (h : SimpleEvolver.sort_island island = top :: rest) :
    ∀ x ∈ top :: rest, x.fitness ≤ top.fitness := by
  have hs : List.Pairwise (fun a b => b.fitness ≤ a.fitness)
      (SimpleEvolver.sort_island island) :=
    List.sorted_insertionSort _ island
  rw [h] at hs
  intro x hx
  rcases List.mem_cons.mp hx with rfl | hmem
  · exact le_refl _
  · exact (List.pairwise_cons.mp hs).1 x hmem

/-- Full specification of one island's generation step: the best-so-far
fitness never decreases; the new island's length is determined by the
elite count and the nominal size; every new-island member is bounded by
the updated best fitness or still unevaluated; under elitism every
positively-scored member of the old island is dominated by some member of
the new island; without elitism the new island is entirely unevaluated. -/
theorem step_island_spec (self : SimpleEvolver) (o : Oracle) (k : ℕ)
    (best : Option Candidate) (impr : ℕ) (island ni : List Candidate)
    (best' : Option Candidate) (impr' evals k' : ℕ)
    (h : SimpleEvolver.step_island self o k best impr island
        = some (ni, best', impr', evals, k')) :
    SimpleEvolver.best_fitness_val best ≤ SimpleEvolver.best_fitness_val best' ∧
    ni.length = max (if self.elitism then
        min (max 1 (island.length / 5)) island.length else 0)
      (self.population_size / self.num_islands) ∧
    (∀ c ∈ ni, c.fitness ≤ SimpleEvolver.best_fitness_val best' ∨ c.fitness = 0) ∧
    (self.elitism = true → ∀ c ∈ island, c.fitness ≠ 0 →
      ∃ d ∈ ni, c.fitness ≤ d.fitness) ∧
    (self.elitism = false → ∀ c ∈ ni, c.fitness = 0) := by
  unfold SimpleEvolver.step_island at h
  cases hsort : SimpleEvolver.sort_island
      (SimpleEvolver.eval_island self.evaluation_criteria island) with
  | nil => rw [hsort] at h; cases h
  | cons top rest =>
    rw [hsort] at h
    dsimp only [] at h
    split at h
    · cases h
    · rename_i hnum
      split at h
      · cases h
      · rename_i nk hfill
        rw [Option.some.injEq, Prod.mk.injEq, Prod.mk.injEq, Prod.mk.injEq,
          Prod.mk.injEq] at h
        obtain ⟨hni, hbest, himpr, hevals, hk⟩ := h
        have hlen1 : (top :: rest).length = island.length := by
          rw [← hsort]
          exact (sort_island_perm _).length_eq.trans (eval_island_length _ _)
        have hmono : SimpleEvolver.best_fitness_val best
            ≤ SimpleEvolver.best_fitness_val best' := by
          rw [← hbest]
          by_cases hcmp : SimpleEvolver.best_fitness_val best < top.fitness
          · rw [if_pos hcmp]
            exact le_of_lt hcmp
          · rw [if_neg hcmp]
        have htop : top.fitness ≤ SimpleEvolver.best_fitness_val best' := by
          rw [← hbest]
          by_cases hcmp : SimpleEvolver.best_fitness_val best < top.fitness
          · rw [if_pos hcmp]
            exact le_refl _
          · rw [if_neg hcmp]
            exact le_of_not_lt hcmp
        have hfill' := hfill
        have hlenfill := fill_island_length self o (top :: rest) _ _ _ _
          nk.1 nk.2 hfill
        have hmembers := fill_island_members self o (top :: rest) _ _ _ _
          nk.1 nk.2 hfill
        have hprefix := fill_island_prefix self o (top :: rest) _ _ _ _
          nk.1 nk.2 hfill
        refine ⟨hmono, ?_, ?_, ?_, ?_⟩
        · rw [← hni, hlenfill]
          by_cases hel : self.elitism
          · rw [if_pos hel, if_pos hel, List.length_take, hlen1]
          · rw [if_neg hel, if_neg hel]
            rfl
        · intro c hc
          rcases hmembers c (by rw [hni]; exact hc) with hstart | hzero
          · left
            have hctr : c ∈ top :: rest := by
              by_cases hel : self.elitism
              · rw [if_pos hel] at hstart
                exact List.mem_of_mem_take hstart
              · rw [if_neg hel] at hstart
                cases hstart
            exact le_trans (sort_island_head_bound _ top rest hsort c hctr) htop
          · exact Or.inr hzero
        · intro hel c hc hcfit
          have hceval : c ∈ SimpleEvolver.eval_island
              self.evaluation_criteria island :=
            mem_eval_island_of_ne_zero _ _ c hc hcfit
          have hcs : c ∈ top :: rest := by
            rw [← hsort]
            exact (sort_island_perm _).mem_iff.mpr hceval
          refine ⟨top, ?_, sort_island_head_bound _ top rest hsort c hcs⟩
          rw [← hni]
          obtain ⟨t, ht⟩ := hprefix
          rw [ht]
          apply List.mem_append_left
          rw [if_pos hel]
          cases hm : max 1 ((top :: rest).length / 5) with
          | zero => omega
          | succ m =>
            rw [List.take_succ_cons]
            exact List.mem_cons_self _ _
        · intro hel c hc
          rcases hmembers c (by rw [hni]; exact hc) with hstart | hzero
          · rw [if_neg (by rw [hel]; exact Bool.false_ne_true)] at hstart
            cases hstart
          · exact hzero

/-- The island loop appends the rebuilt islands after the already-processed
ones. -/
theorem step_islands_prefix (self : SimpleEvolver) (o : Oracle) :
    ∀ (islands done : List (List Candidate)) (best : Option Candidate)
      (impr evals k : ℕ)
      (out : List (List Candidate) × Option Candidate × ℕ × ℕ × ℕ),
      SimpleEvolver.step_islands self o islands done best impr evals k = some out →
      ∃ added, out.1 = done ++ added := by
  intro islands
  induction islands with
  | nil =>
    intro done best impr evals k out h
    simp only [SimpleEvolver.step_islands, Option.some.injEq] at h
    exact ⟨[], by rw [← h]; simp⟩
  | cons isl rest ih =>
    intro done best impr evals k out h
    simp only [SimpleEvolver.step_islands] at h
    split at h
    · cases h
    · rename_i r hstep
      obtain ⟨added, ha⟩ := ih _ _ _ _ _ out h
      exact ⟨r.1 :: added, by rw [ha]; simp⟩

/-- With a positive nominal island size and all input islands at most one
over nominal, the island loop produces islands of exactly nominal size. -/
theorem step_islands_lengths (self : SimpleEvolver) (o : Oracle)
    (hnom : 1 ≤ self.population_size / self.num_islands) :
    ∀ (islands done : List (List Candidate)) (best : Option Candidate)
      (impr evals k : ℕ)
      (out : List (List Candidate) × Option Candidate × ℕ × ℕ × ℕ),
      SimpleEvolver.step_islands self o islands done best impr evals k = some out →
      (∀ isl ∈ islands,
        isl.length ≤ self.population_size / self.num_islands + 1) →
      out.1.length = done.length + islands.length ∧
      (∀ isl ∈ out.1, isl ∈ done ∨
        isl.length = self.population_size / self.num_islands) := by
  intro islands
  induction islands with
  | nil =>
    intro done best impr evals k out h hbound
    simp only [SimpleEvolver.step_islands, Option.some.injEq] at h
    rw [← h]
    exact ⟨by simp, fun isl hm => Or.inl hm⟩
  | cons isl rest ih =>
    intro done best impr evals k out h hbound
    simp only [SimpleEvolver.step_islands] at h
    split at h
    · cases h
    · rename_i r hstep
      have hspec := step_island_spec self o _ best impr isl r.1 r.2.1 r.2.2.1
        r.2.2.2.1 r.2.2.2.2 hstep
      have hisl : isl.length ≤ self.population_size / self.num_islands + 1 :=
        hbound isl (List.mem_cons_self _ _)
      have hr1 : r.1.length = self.population_size / self.num_islands := by
        rw [hspec.2.1]
        by_cases hel : self.elitism
        · rw [if_pos hel]
          omega
        · rw [if_neg hel]
          omega
      have hrest := ih (done ++ [r.1]) r.2.1 r.2.2.1 _ _ out h
        (fun i hi => hbound i (List.mem_cons_of_mem _ hi))
      constructor
      · rw [hrest.1]
        simp
        omega
      · intro i hi
        rcases hrest.2 i hi with hdone | hlen
        · rcases List.mem_append.mp hdone with hd | hx
          · exact Or.inl hd
          · right
            rw [List.mem_singleton.mp hx]
            exact hr1
        · exact Or.inr hlen

/-- The island loop never lowers the tracked best fitness, keeps it
non-negative, and bounds every produced candidate's fitness by it. -/
theorem step_islands_best (self : SimpleEvolver) (o : Oracle) :
    ∀ (islands done : List (List Candidate)) (best : Option Candidate)
      (impr evals k : ℕ)
      (out : List (List Candidate) × Option Candidate × ℕ × ℕ × ℕ),
      SimpleEvolver.step_islands self o islands done best impr evals k = some out →
      0 ≤ SimpleEvolver.best_fitness_val best →
      (∀ c ∈ done.flatten, c.fitness ≤ SimpleEvolver.best_fitness_val best) →
      SimpleEvolver.best_fitness_val best
          ≤ SimpleEvolver.best_fitness_val out.2.1 ∧
      0 ≤ SimpleEvolver.best_fitness_val out.2.1 ∧
      ∀ c ∈ out.1.flatten, c.fitness ≤ SimpleEvolver.best_fitness_val out.2.1 := by
  intro islands
  induction islands with
  | nil =>
    intro done best impr evals k out h h0 hdone
    simp only [SimpleEvolver.step_islands, Option.some.injEq] at h
    rw [← h]
    exact ⟨le_refl _, h0, hdone⟩
  | cons isl rest ih =>
    intro done best impr evals k out h h0 hdone
    simp only [SimpleEvolver.step_islands] at h
    split at h
    · cases h
    · rename_i r hstep
      have hspec := step_island_spec self o _ best impr isl r.1 r.2.1 r.2.2.1
        r.2.2.2.1 r.2.2.2.2 hstep
      have hmono := hspec.1
      have h0' : 0 ≤ SimpleEvolver.best_fitness_val r.2.1 := le_trans h0 hmono
      have hdone' : ∀ c ∈ (done ++ [r.1]).flatten,
          c.fitness ≤ SimpleEvolver.best_fitness_val r.2.1 := by
        intro c hc
        rw [List.flatten_append] at hc
        rcases List.mem_append.mp hc with hc1 | hc2
        · exact le_trans (hdone c hc1) hmono
        · have hc2' : c ∈ r.1 := by simpa using hc2
          rcases hspec.2.2.1 c hc2' with hle | hz
          · exact hle
          · rw [hz]; exact h0'
      have hrest := ih (done ++ [r.1]) r.2.1 r.2.2.1 _ _ out h h0' hdone'
      exact ⟨le_trans hmono hrest.1, hrest.2.1, hrest.2.2⟩

/-- Under elitism, every positively-scored candidate present before the
island loop is dominated by some candidate present after it. -/
theorem step_islands_retain (self : SimpleEvolver) (o : Oracle)
    (hel : self.elitism = true) :
    ∀ (islands done : List (List Candidate)) (best : Option Candidate)
      (impr evals k : ℕ)
      (out : List (List Candidate) × Option Candidate × ℕ × ℕ × ℕ),
      SimpleEvolver.step_islands self o islands done best impr evals k = some out →
      ∀ c ∈ islands.flatten, c.fitness ≠ 0 →
        ∃ d, d ∈ out.1.flatten ∧ c.fitness ≤ d.fitness := by
  intro islands
  induction islands with
  | nil =>
    intro done best impr evals k out h c hc
    simp at hc
  | cons isl rest ih =>
    intro done best impr evals k out h c hc hcfit
    simp only [SimpleEvolver.step_islands] at h
    split at h
    · cases h
    · rename_i r hstep
      rw [List.flatten_cons] at hc
      rcases List.mem_append.mp hc with hc1 | hc2
      · have hspec := step_island_spec self o _ best impr isl r.1 r.2.1 r.2.2.1
          r.2.2.2.1 r.2.2.2.2 hstep
        obtain ⟨d, hd, hdle⟩ := hspec.2.2.2.1 hel c hc1 hcfit
        obtain ⟨added, ha⟩ := step_islands_prefix self o rest _ _ _ _ _ out h
        refine ⟨d, ?_, hdle⟩
        apply List.mem_flatten.mpr
        refine ⟨r.1, ?_, hd⟩
        rw [ha]
        exact List.mem_append_left _ (List.mem_append_right _ (List.mem_singleton_self _))
      · exact ih _ _ _ _ _ out h c hc2 hcfit

/-- Without elitism the island loop produces only unevaluated candidates. -/
theorem step_islands_zero (self : SimpleEvolver) (o : Oracle)
    (hel : self.elitism = false) :
    ∀ (islands done : List (List Candidate)) (best : Option Candidate)
      (impr evals k : ℕ)
      (out : List (List Candidate) × Option Candidate × ℕ × ℕ × ℕ),
      SimpleEvolver.step_islands self o islands done best impr evals k = some out →
      (∀ c ∈ done.flatten, c.fitness = 0) →
      ∀ c ∈ out.1.flatten, c.fitness = 0 := by
  intro islands
  induction islands with
  | nil =>
    intro done best impr evals k out h hdone
    simp only [SimpleEvolver.step_islands, Option.some.injEq] at h
    rw [← h]
    exact hdone
  | cons isl rest ih =>
    intro done best impr evals k out h hdone
    simp only [SimpleEvolver.step_islands] at h
    split at h
    · cases h
    · rename_i r hstep
      have hspec := step_island_spec self o _ best impr isl r.1 r.2.1 r.2.2.1
        r.2.2.2.1 r.2.2.2.2 hstep
      refine ih _ _ _ _ _ out h ?_
      intro c hc
      rw [List.flatten_append] at hc
      rcases List.mem_append.mp hc with hc1 | hc2
      · exact hdone c hc1
      · exact hspec.2.2.2.2 hel c (by simpa using hc2)

/-- Positional access after an in-range in-place update, same position. -/
theorem getD_set_self (l : List (List Candidate)) (i : ℕ) (v : List Candidate)
    (h : i < l.length) : (l.set i v).getD i [] = v := by
  simp [List.getD_eq_getElem?_getD, List.getElem?_set_self h]

/-- Positional access after an in-place update, different position. -/
theorem getD_set_ne (l : List (List Candidate)) (i j : ℕ) (v : List Candidate)
    (h : i ≠ j) : (l.set i v).getD j [] = l.getD j [] := by
  simp [List.getD_eq_getElem?_getD, List.getElem?_set_ne h]

/-- Flattened membership through positional access. -/
theorem mem_flatten_getD (l : List (List Candidate)) (c : Candidate) :
    c ∈ l.flatten ↔ ∃ j, j < l.length ∧ c ∈ l.getD j [] := by
  induction l with
  | nil => simp
  | cons x xs ih =>
    rw [List.flatten_cons]
    constructor
    · intro hc
      rcases List.mem_append.mp hc with hx | hmem
      · exact ⟨0, by simp, by simpa using hx⟩
      · obtain ⟨j, hj, hcj⟩ := ih.mp hmem
        refine ⟨j + 1, ?_, by simpa using hcj⟩
        simp only [List.length_cons]
        omega
    · rintro ⟨j, hj, hcj⟩
      cases j with
      | zero =>
        exact List.mem_append_left _ (by simpa using hcj)
      | succ j =>
        refine List.mem_append_right _ (ih.mpr ⟨j, ?_, by simpa using hcj⟩)
        simp only [List.length_cons] at hj
        omega

/-- One migration-loop iteration preserves the island count. -/
theorem migrate_step_length (acc : List (List Candidate)) (i : ℕ) :
    (SimpleEvolver.migrate_step acc i).length = acc.length := by
  unfold SimpleEvolver.migrate_step
  split
  · rfl
  · simp

/-- One migration-loop iteration only appends to islands. -/
theorem migrate_step_getD (acc : List (List Candidate)) (i j : ℕ) :
    ∃ t, (SimpleEvolver.migrate_step acc i).getD j [] = acc.getD j [] ++ t := by
  unfold SimpleEvolver.migrate_step
  cases hsrc : acc.getD i [] with
  | nil => exact ⟨[], by simp⟩
  | cons m rest =>
    have hlen0 : 0 < acc.length := by
      rcases acc with _ | ⟨a, as⟩
      · simp at hsrc
      · simp
    have hnxt : (i + 1) % acc.length < acc.length := Nat.mod_lt _ hlen0
    by_cases hj : (i + 1) % acc.length = j
    · refine ⟨[m], ?_⟩
      rw [← hj, getD_set_self _ _ _ hnxt]
    · refine ⟨[], ?_⟩
      rw [getD_set_ne _ _ _ _ hj, List.append_nil]

/-- The migration loop preserves the island count. -/
theorem migrate_length (init : List (List Candidate)) :
    (SimpleEvolver.migrate init).length = init.length := by
  unfold SimpleEvolver.migrate
  generalize List.range init.length = idxs
  induction idxs generalizing init with
  | nil => rfl
  | cons i rest ih =>
    rw [List.foldl_cons, ih (SimpleEvolver.migrate_step init i),
      migrate_step_length]

/-- The migration loop only appends to islands: no migrant is removed from
its source island. -/
theorem migrate_getD_prefix (init : List (List Candidate)) :
    ∀ j, ∃ t, (SimpleEvolver.migrate init).getD j [] = init.getD j [] ++ t := by
  unfold SimpleEvolver.migrate
  generalize List.range init.length = idxs
  induction idxs generalizing init with
  | nil => intro j; exact ⟨[], by simp⟩
  | cons i rest ih =>
    intro j
    rw [List.foldl_cons]
    obtain ⟨t1, ht1⟩ := migrate_step_getD init i j
    obtain ⟨t2, ht2⟩ := ih (SimpleEvolver.migrate_step init i) j
    exact ⟨t1 ++ t2, by rw [ht2, ht1, List.append_assoc]⟩

/-- Every candidate present after one migration-loop iteration was present
before it. -/
theorem migrate_step_flatten_sub (acc : List (List Candidate)) (i : ℕ) :
    ∀ c ∈ (SimpleEvolver.migrate_step acc i).flatten, c ∈ acc.flatten := by
  intro c hc
  unfold SimpleEvolver.migrate_step at hc
  rcases hsrc : acc.getD i [] with _ | ⟨m, rest⟩
  · rw [hsrc] at hc
    exact hc
  · rw [hsrc] at hc
    have hlen0 : 0 < acc.length := by
      rcases acc with _ | ⟨a, as⟩
      · simp at hsrc
      · simp
    have hi : i < acc.length := by
      by_contra hcon
      push_neg at hcon
      rw [List.getD_eq_default _ _ hcon] at hsrc
      cases hsrc
    obtain ⟨j, hj, hcj⟩ := (mem_flatten_getD _ c).mp hc
    rw [List.length_set] at hj
    by_cases hjn : (i + 1) % acc.length = j
    · rw [← hjn, getD_set_self _ _ _ (Nat.mod_lt _ hlen0)] at hcj
      rcases List.mem_append.mp hcj with hin | hm
      · exact (mem_flatten_getD _ c).mpr ⟨(i + 1) % acc.length,
          Nat.mod_lt _ hlen0, hin⟩
      · refine (mem_flatten_getD _ c).mpr ⟨i, hi, ?_⟩
        rw [hsrc, List.mem_singleton.mp hm]
        exact List.mem_cons_self _ _
    · rw [getD_set_ne _ _ _ _ hjn] at hcj
      exact (mem_flatten_getD _ c).mpr ⟨j, hj, hcj⟩

/-- Every candidate present after migration was present before it. -/
theorem migrate_flatten_sub (init : List (List Candidate)) :
    ∀ c ∈ (SimpleEvolver.migrate init).flatten, c ∈ init.flatten := by
  unfold SimpleEvolver.migrate
  generalize List.range init.length = idxs
  induction idxs generalizing init with
  | nil => intro c hc; exact hc
  | cons i rest ih =>
    intro c hc
    rw [List.foldl_cons] at hc
    exact migrate_step_flatten_sub init i c
      (ih (SimpleEvolver.migrate_step init i) c hc)

/-- Every candidate present before migration is still present after it. -/
theorem migrate_flatten_super (init : List (List Candidate)) :
    ∀ c ∈ init.flatten, c ∈ (SimpleEvolver.migrate init).flatten := by
  intro c hc
  obtain ⟨j, hj, hcj⟩ := (mem_flatten_getD init c).mp hc
  obtain ⟨t, ht⟩ := migrate_getD_prefix init j
  refine (mem_flatten_getD _ c).mpr ⟨j, ?_, ?_⟩
  · rw [migrate_length]
    exact hj
  · rw [ht]
    exact List.mem_append_left _ hcj

/-- Exact per-island sizes after the migration loop: with at least two
islands, all non-empty, every island receives exactly one migrant (its
ring predecessor's top) and loses none. -/
theorem migrate_lengths (init : List (List Candidate)) (h2 : 2 ≤ init.length)
    (hne : ∀ j, j < init.length → init.getD j [] ≠ []) :
    ∀ j, j < init.length →
      ((SimpleEvolver.migrate init).getD j []).length
        = (init.getD j []).length + 1 := by
  have aux : ∀ m, m ≤ init.length →
      (((List.range m).foldl SimpleEvolver.migrate_step init).length
        = init.length) ∧
      ∀ j, j < init.length →
        ((((List.range m).foldl SimpleEvolver.migrate_step init)).getD j []).length
          = (init.getD j []).length
            + (if (1 ≤ j ∧ j ≤ m) ∨ (j = 0 ∧ m = init.length) then 1 else 0) := by
    intro m
    induction m with
    | zero =>
      intro _
      refine ⟨rfl, ?_⟩
      intro j hj
      rw [if_neg (by omega)]
      simp
    | succ m ih =>
      intro hm
      obtain ⟨ihlen, ihget⟩ := ih (by omega)
      rw [List.range_succ, List.foldl_append]
      set prev := (List.range m).foldl SimpleEvolver.migrate_step init with hprev
      have hmlt : m < init.length := by omega
      have hsrc_len := ihget m hmlt
      have hinit_ne : (init.getD m []).length ≠ 0 := by
        intro hc
        exact hne m hmlt (List.eq_nil_of_length_eq_zero hc)
      cases hsrc : prev.getD m [] with
      | nil =>
        rw [hsrc] at hsrc_len
        simp only [List.length_nil] at hsrc_len
        split at hsrc_len <;> omega
      | cons mig rest =>
        have hstep : SimpleEvolver.migrate_step prev m
            = prev.set ((m + 1) % prev.length)
                (prev.getD ((m + 1) % prev.length) [] ++ [mig]) := by
          unfold SimpleEvolver.migrate_step
          rw [hsrc]
        rw [List.foldl_cons, List.foldl_nil, hstep]
        have hplen : prev.length = init.length := ihlen
        have hplen0 : 0 < prev.length := by omega
        have hnxt_lt : (m + 1) % prev.length < prev.length := Nat.mod_lt _ hplen0
        refine ⟨by rw [List.length_set]; exact hplen, ?_⟩
        intro j hj
        have hnxt_val : (m + 1) % prev.length
            = if m + 1 = init.length then 0 else m + 1 := by
          rw [hplen]
          by_cases hc : m + 1 = init.length
          · rw [if_pos hc, hc, Nat.mod_self]
          · rw [if_neg hc, Nat.mod_eq_of_lt (by omega)]
        by_cases hjn : j = (m + 1) % prev.length
        · rw [← hjn] at hnxt_lt ⊢
          rw [getD_set_self _ _ _ hnxt_lt, List.length_append,
            ihget j hj]
          simp only [List.length_cons, List.length_nil]
          rw [hnxt_val] at hjn
          split_ifs at hjn ⊢ <;> omega
        · rw [getD_set_ne _ _ _ _ (fun hc => hjn hc.symm), ihget j hj]
          rw [hnxt_val] at hjn
          split_ifs at hjn ⊢ <;> omega
  intro j hj
  have h := (aux init.length (le_refl _)).2 j hj
  unfold SimpleEvolver.migrate
  rw [h, if_pos (by omega)]

/-- Decomposition of a successful generation step into the island loop,
the optional migration, and the appended statistics record. -/
theorem evolve_generation_spec (e : SimpleEvolver) (o : Oracle) (k : ℕ)
    (e' : SimpleEvolver) (st : GenerationStats) (k' : ℕ)
    (h : SimpleEvolver.evolve_generation e o k = some (e', st, k')) :
    ∃ res : List (List Candidate) × Option Candidate × ℕ × ℕ × ℕ,
      SimpleEvolver.step_islands { e with generation := e.generation + 1 } o
        e.islands [] e.best_candidate 0 0 k = some res ∧
      e'.islands = (if (e.generation + 1) % 5 = 0 ∧ 1 < res.1.length
        then SimpleEvolver.migrate res.1 else res.1) ∧
      e'.best_candidate = res.2.1 ∧
      e'.generation = e.generation + 1 ∧
      e'.history = e.history ++ [st] ∧
      st.best_fitness = SimpleEvolver.best_fitness_of e'.islands ∧
      st.generation = e.generation + 1 ∧
      e'.elitism = e.elitism ∧
      e'.population_size = e.population_size ∧
      e'.num_islands = e.num_islands ∧
      e'.evaluation_criteria = e.evaluation_criteria := by
  unfold SimpleEvolver.evolve_generation at h
  dsimp only [] at h
  split at h
  · cases h
  · rename_i res hres
    rw [Option.some.injEq, Prod.mk.injEq, Prod.mk.injEq] at h
    obtain ⟨he', hst, hk⟩ := h
    subst he'
    subst hst
    exact ⟨res, hres, rfl, rfl, rfl, rfl, rfl, rfl, rfl, rfl, rfl, rfl⟩

/-- A fold of binary maxima over rationals, seeded at zero, is
non-negative. -/
theorem foldr_max_nonneg (l : List ℚ) : 0 ≤ l.foldr max 0 := by
  induction l with
  | nil => exact le_refl 0
  | cons x xs ih => exact le_trans ih (le_max_right x _)

/-- A non-zero fold of maxima seeded at zero is attained by some element. -/
theorem foldr_max_mem (l : List ℚ) (h : l.foldr max 0 ≠ 0) :
    l.foldr max 0 ∈ l := by
  induction l with
  | nil => exact absurd rfl h
  | cons x xs ih =>
    rw [List.foldr_cons] at h ⊢
    by_cases hc : xs.foldr max 0 ≤ x
    · rw [max_eq_left hc]
      exact List.mem_cons_self _ _
    · rw [max_eq_right (le_of_not_le hc)] at h ⊢
      exact List.mem_cons_of_mem _ (ih h)

/-- Every element is bounded by the fold of maxima. -/
theorem le_foldr_max (l : List ℚ) (x : ℚ) (hx : x ∈ l) :
    x ≤ l.foldr max 0 := by
  induction l with
  | nil => cases hx
  | cons y ys ih =>
    rcases List.mem_cons.mp hx with rfl | hmem
    · exact le_max_left _ _
    · exact le_trans (ih hmem) (le_max_right _ _)

/-- The `best_fitness` statistic is never negative. -/
theorem best_fitness_of_nonneg (islands : List (List Candidate)) :
    0 ≤ SimpleEvolver.best_fitness_of islands := by
  unfold SimpleEvolver.best_fitness_of
  dsimp only []
  split
  · exact le_refl 0
  · exact foldr_max_nonneg _

/-- A non-zero `best_fitness` statistic is attained by a positive-fitness
candidate of the islands. -/
theorem best_fitness_of_attained (islands : List (List Candidate))
    (h : SimpleEvolver.best_fitness_of islands ≠ 0) :
    ∃ c ∈ islands.flatten,
      c.fitness = SimpleEvolver.best_fitness_of islands ∧ 0 < c.fitness := by
  unfold SimpleEvolver.best_fitness_of at h ⊢
  dsimp only [] at h ⊢
  split at h
  · exact absurd rfl h
  · rename_i hne
    rw [if_neg hne]
    have hmem := foldr_max_mem _ h
    have hf := List.mem_filter.mp hmem
    obtain ⟨c, hc, hceq⟩ := List.mem_map.mp hf.1
    refine ⟨c, hc, hceq, ?_⟩
    rw [hceq]
    exact of_decide_eq_true hf.2

/-- Every positive-fitness candidate is bounded by the `best_fitness`
statistic. -/
theorem le_best_fitness_of (islands : List (List Candidate)) (c : Candidate)
    (hc : c ∈ islands.flatten) (hpos : 0 < c.fitness) :
    c.fitness ≤ SimpleEvolver.best_fitness_of islands := by
  unfold SimpleEvolver.best_fitness_of
  dsimp only []
  have hmem : c.fitness ∈ ((SimpleEvolver.all_candidates islands).map
      Candidate.fitness).filter (fun q => decide (0 < q)) :=
    List.mem_filter.mpr ⟨List.mem_map.mpr ⟨c, hc, rfl⟩, decide_eq_true hpos⟩
  rw [if_neg (List.ne_nil_of_mem hmem)]
  exact le_foldr_max _ _ hmem

/-- In-range positional access yields a member. -/
theorem getD_mem_of_lt (l : List (List Candidate)) (j : ℕ) (hj : j < l.length) :
    l.getD j [] ∈ l := by
  rw [List.getD_eq_getElem?_getD, List.getElem?_eq_getElem hj]
  exact List.getElem_mem hj

/-- Claim C7, amended: in a generation step whose incremented counter is
divisible by 5, provided there are AT LEAST TWO islands (with consistent
sizing: the island list matches `num_islands`, the nominal size
`population_size // num_islands` is at least 1, and every island is
within one candidate of nominal, as in every reachable state), migration
runs and afterwards EVERY island contains exactly nominal + 1
candidates: each island keeps its rebuilt population (nominal members)
and receives exactly one migrant from its ring predecessor, which is not
removed from its source.  With a single island the code skips migration
entirely, so the claim as stated fails. -/
theorem c7_migration (e : SimpleEvolver) (o : Oracle) (k : ℕ)
    (e' : SimpleEvolver) (st : GenerationStats) (k' : ℕ)
    (hgen : (e.generation + 1) % 5 = 0)
    (hisl : e.islands.length = e.num_islands)
    (h2 : 2 ≤ e.num_islands)
    (hnom : 1 ≤ e.population_size / e.num_islands)
    (hbound : ∀ isl ∈ e.islands,
      isl.length ≤ e.population_size / e.num_islands + 1)
    (h : SimpleEvolver.evolve_generation e o k = some (e', st, k')) :
    e'.islands.length = e.num_islands ∧
    ∀ j, j < e.num_islands →
      (e'.islands.getD j []).length
        = e.population_size / e.num_islands + 1 := by
  obtain ⟨res, hres, hisl', _, _, _, _, _, _, _, _⟩ :=
    evolve_generation_spec e o k e' st k' h
  have hlen := step_islands_lengths { e with generation := e.generation + 1 } o
    hnom e.islands [] e.best_candidate 0 0 k res hres hbound
  have hres1len : res.1.length = e.num_islands := by
    rw [hlen.1, hisl]
    simp
  have hmemlen : ∀ isl ∈ res.1,
      isl.length = e.population_size / e.num_islands := by
    intro isl hm
    rcases hlen.2 isl hm with habs | hl
    · cases habs
    · exact hl
  have hcond : (e.generation + 1) % 5 = 0 ∧ 1 < res.1.length :=
    ⟨hgen, by omega⟩
  rw [if_pos hcond] at hisl'
  have hne : ∀ j, j < res.1.length → res.1.getD j [] ≠ [] := by
    intro j hj hc
    have hml := hmemlen _ (getD_mem_of_lt res.1 j hj)
    rw [hc] at hml
    simp only [List.length_nil] at hml
    omega
  constructor
  · rw [hisl', migrate_length, hres1len]
  · intro j hj
    rw [hisl', migrate_lengths res.1 (by omega) hne j (by omega),
      hmemlen _ (getD_mem_of_lt res.1 j (by omega))]

/-- Claim C4: after every successful generation step from a state whose
tracked best fitness is non-negative (as in every reachable state), the
tracked best candidate's fitness never decreases, and it bounds the
fitness of every candidate of every island afterwards — hence, along a
run, of every candidate ever observed. -/
theorem c4_best_candidate (e : SimpleEvolver) (o : Oracle) (k : ℕ)
    (e' : SimpleEvolver) (st : GenerationStats) (k' : ℕ)
    (h0 : 0 ≤ SimpleEvolver.best_fitness_val e.best_candidate)
    (h : SimpleEvolver.evolve_generation e o k = some (e', st, k')) :
    SimpleEvolver.best_fitness_val e.best_candidate
      ≤ SimpleEvolver.best_fitness_val e'.best_candidate ∧
    ∀ c ∈ SimpleEvolver.all_candidates e'.islands,
      c.fitness ≤ SimpleEvolver.best_fitness_val e'.best_candidate := by
  obtain ⟨res, hres, hisl', hbest, _, _, _, _, _, _, _⟩ :=
    evolve_generation_spec e o k e' st k' h
  have hb := step_islands_best { e with generation := e.generation + 1 } o
    e.islands [] e.best_candidate 0 0 k res hres h0 (by simp)
  refine ⟨by rw [hbest]; exact hb.1, ?_⟩
  intro c hc
  rw [hbest]
  rw [hisl'] at hc
  have hc' : c ∈ res.1.flatten := by
    by_cases hcond : (e.generation + 1) % 5 = 0 ∧ 1 < res.1.length
    · rw [if_pos hcond] at hc
      exact migrate_flatten_sub res.1 c hc
    · rw [if_neg hcond] at hc
      exact hc
  exact hb.2.2 c hc'

/-- Single-step preservation of the run invariant behind claim C3: the
`best_fitness` statistic of the islands never decreases across a
successful step (under the reachable-state invariant that an
elitism-free engine holds only unevaluated candidates), the invariant is
preserved, the step appends exactly one statistics record carrying the
new `best_fitness`, and the generation counter advances by one. -/
theorem c3_step (e : SimpleEvolver) (o : Oracle) (k : ℕ)
    (e' : SimpleEvolver) (st : GenerationStats) (k' : ℕ)
    (h : SimpleEvolver.evolve_generation e o k = some (e', st, k'))
    (hJ : e.elitism = false →
      ∀ c ∈ SimpleEvolver.all_candidates e.islands, c.fitness = 0) :
    SimpleEvolver.best_fitness_of e.islands
        ≤ SimpleEvolver.best_fitness_of e'.islands ∧
    (e'.elitism = false →
      ∀ c ∈ SimpleEvolver.all_candidates e'.islands, c.fitness = 0) ∧
    e'.history = e.history ++ [st] ∧
    e'.generation = e.generation + 1 ∧
    st.best_fitness = SimpleEvolver.best_fitness_of e'.islands := by
  obtain ⟨res, hres, hisl', hbest, hgen, hhist, hstb, hstg, hel, hpop, hnum, hcrit⟩ :=
    evolve_generation_spec e o k e' st k' h
  have hsub : ∀ c ∈ SimpleEvolver.all_candidates e'.islands,
      c ∈ res.1.flatten := by
    intro c hc
    rw [hisl'] at hc
    by_cases hcond : (e.generation + 1) % 5 = 0 ∧ 1 < res.1.length
    · rw [if_pos hcond] at hc
      exact migrate_flatten_sub res.1 c hc
    · rw [if_neg hcond] at hc
      exact hc
  have hsuper : ∀ c ∈ res.1.flatten,
      c ∈ SimpleEvolver.all_candidates e'.islands := by
    intro c hc
    rw [hisl']
    by_cases hcond : (e.generation + 1) % 5 = 0 ∧ 1 < res.1.length
    · rw [if_pos hcond]
      exact migrate_flatten_super res.1 c hc
    · rw [if_neg hcond]
      exact hc
  refine ⟨?_, ?_, hhist, hgen, hstb⟩
  · by_cases hB : SimpleEvolver.best_fitness_of e.islands = 0
    · rw [hB]
      exact best_fitness_of_nonneg _
    · obtain ⟨c, hc, hceq, hcpos⟩ := best_fitness_of_attained e.islands hB
      cases helit : e.elitism with
      | false =>
        have := hJ helit c hc
        rw [this] at hcpos
        exact absurd hcpos (lt_irrefl 0)
      | true =>
        obtain ⟨d, hd, hdle⟩ := step_islands_retain
          { e with generation := e.generation + 1 } o helit e.islands []
          e.best_candidate 0 0 k res hres c hc (ne_of_gt hcpos)
        have hd' : d ∈ SimpleEvolver.all_candidates e'.islands := hsuper d hd
        have hdpos : 0 < d.fitness := lt_of_lt_of_le hcpos hdle
        calc SimpleEvolver.best_fitness_of e.islands
            = c.fitness := hceq.symm
          _ ≤ d.fitness := hdle
          _ ≤ SimpleEvolver.best_fitness_of e'.islands :=
              le_best_fitness_of e'.islands d hd' hdpos
  · intro hel' c hc
    have helF : e.elitism = false := by rw [← hel]; exact hel'
    exact step_islands_zero { e with generation := e.generation + 1 } o helF
      e.islands [] e.best_candidate 0 0 k res hres (by simp) c (hsub c hc)

/-- A fold whose function appends one island all of whose members satisfy
a predicate. -/
theorem foldl_island_members_pred {β : Type}
    (g : List (List Candidate) × ℕ → β → List (List Candidate) × ℕ)
    (P : Candidate → Prop)
    (hg : ∀ st b, ∃ isl, (g st b).1 = st.1 ++ [isl] ∧ ∀ c ∈ isl, P c) :
    ∀ (l : List β) (st : List (List Candidate) × ℕ),
      ∀ isl ∈ (l.foldl g st).1, isl ∈ st.1 ∨ ∀ c ∈ isl, P c := by
  intro l
  induction l with
  | nil => intro st isl h; exact Or.inl h
  | cons x xs ih =>
    intro st isl hmem
    rw [List.foldl_cons] at hmem
    obtain ⟨isl0, heq, hP⟩ := hg st x
    rcases ih (g st x) isl hmem with h | h
    · rw [heq] at h
      rcases List.mem_append.mp h with h1 | h1
      · exact Or.inl h1
      · right
        rw [List.mem_singleton.mp h1]
        exact hP
    · exact Or.inr h

/-- Every candidate of an initial island carries the sentinel fitness 0. -/
theorem create_initial_population_fitness (o : Oracle) (seed : String)
    (pop n k : ℕ) :
    ∀ c ∈ (SimpleEvolver.create_initial_population o seed pop n k).1,
      c.fitness = 0 := by
  unfold SimpleEvolver.create_initial_population
  have aux : ∀ (l : List ℕ) (st : List Candidate × ℕ),
      ∀ c ∈ ((l.foldl (fun acc i =>
        let population := acc.1
        let p := if i > 0 then SimpleEvolver.mutate_text o acc.2 seed
          else (seed, acc.2)
        (population ++
          [{ id := "gen0_island" ++ toString population.length ++ "_" ++ toString i,
             content := p.1, generation := 0 }], p.2)) st).1),
        c ∈ st.1 ∨ c.fitness = 0 := by
    intro l
    induction l with
    | nil => intro st c hc; exact Or.inl hc
    | cons x xs ih =>
      intro st c hc
      rw [List.foldl_cons] at hc
      rcases ih _ c hc with h | h
      · rcases List.mem_append.mp h with h1 | h1
        · exact Or.inl h1
        · right
          rw [List.mem_singleton.mp h1]
      · exact Or.inr h
  intro c hc
  rcases aux (List.range (pop / n)) ([], k) c hc with h | h
  · cases h
  · exact h

/-- Every candidate of a freshly constructed engine carries the sentinel
fitness 0. -/
theorem make_fitness_zero (o : Oracle) (seed crit mm em : String)
    (pop n : ℕ) (el : Bool) (cr mr : ℚ) (k : ℕ) :
    ∀ c ∈ SimpleEvolver.all_candidates
      (SimpleEvolver.make o seed crit pop n mm em el cr mr k).1.islands,
      c.fitness = 0 := by
  intro c hc
  obtain ⟨isl, hisl, hcisl⟩ := List.mem_flatten.mp hc
  have hmem := foldl_island_members_pred
    (fun (acc : List (List Candidate) × ℕ) (_ : ℕ) =>
      ((acc.1 ++ [(SimpleEvolver.create_initial_population o seed pop n acc.2).1],
        (SimpleEvolver.create_initial_population o seed pop n acc.2).2)))
    (fun c => c.fitness = 0)
    (fun st b => ⟨(SimpleEvolver.create_initial_population o seed pop n st.2).1,
      rfl, create_initial_population_fitness o seed pop n st.2⟩)
    (List.range n) ([], k) isl hisl
  rcases hmem with h | h
  · cases h
  · exact h c hcisl

/-- Run-level invariant behind claim C3: across any number of successful
generation steps, the history grows by exactly one record per step, the
generation counter tracks it, and the whole history stays sorted by
non-decreasing `best_fitness`. -/
theorem c3_run_inv (o : Oracle) :
    ∀ (N : ℕ) (e : SimpleEvolver) (k : ℕ) (eN : SimpleEvolver) (kN : ℕ),
      SimpleEvolver.run_generations o N e k = some (eN, kN) →
      (e.elitism = false →
        ∀ c ∈ SimpleEvolver.all_candidates e.islands, c.fitness = 0) →
      List.Pairwise (fun s1 s2 => s1.best_fitness ≤ s2.best_fitness) e.history →
      (∀ s ∈ e.history,
        s.best_fitness ≤ SimpleEvolver.best_fitness_of e.islands) →
      eN.history.length = e.history.length + N ∧
      eN.generation = e.generation + N ∧
      List.Pairwise (fun s1 s2 => s1.best_fitness ≤ s2.best_fitness)
        eN.history := by
  intro N
  induction N with
  | zero =>
    intro e k eN kN h hJ hpw hbd
    simp only [SimpleEvolver.run_generations, Option.some.injEq,
      Prod.mk.injEq] at h
    obtain ⟨h1, h2⟩ := h
    subst h1
    exact ⟨by simp, by simp, hpw⟩
  | succ N ih =>
    intro e k eN kN h hJ hpw hbd
    simp only [SimpleEvolver.run_generations] at h
    split at h
    · cases h
    · rename_i r hstep
      obtain ⟨hmono, hJ2, hhist, hgen, hstb⟩ :=
        c3_step e o k r.1 r.2.1 r.2.2 hstep hJ
      have hpw2 : List.Pairwise
          (fun s1 s2 => s1.best_fitness ≤ s2.best_fitness) r.1.history := by
        rw [hhist, List.pairwise_append]
        refine ⟨hpw, List.pairwise_singleton _ _, ?_⟩
        intro s hs st2 hst2
        rw [List.mem_singleton.mp hst2, hstb]
        exact le_trans (hbd s hs) hmono
      have hbd2 : ∀ s ∈ r.1.history,
          s.best_fitness ≤ SimpleEvolver.best_fitness_of r.1.islands := by
        rw [hhist]
        intro s hs
        rcases List.mem_append.mp hs with h1 | h2
        · exact le_trans (hbd s h1) hmono
        · rw [List.mem_singleton.mp h2, hstb]
      have hrest := ih r.1 r.2.2 eN kN h hJ2 hpw2 hbd2
      refine ⟨?_, ?_, hrest.2.2⟩
      · rw [hrest.1, hhist]
        simp only [List.length_append, List.length_cons, List.length_nil]
        omega
      · rw [hrest.2.1, hgen]
        omega

/-- Claim C3, amended: for every config and draw sequence for which the
`evolve` loop completes (the reproduction step can crash for small
islands — see claim C1's code bug), running N generations from a fresh
engine appends exactly N `GenerationStats` records to the (initially
empty) history, the final generation counter equals N — so history
length always equals the generation counter — and the recorded
`best_fitness` is non-decreasing along the history sequence. -/
theorem c3_history (o : Oracle) (seed crit mm em : String) (pop n : ℕ)
    (el : Bool) (cr mr : ℚ) (k N : ℕ) (eN : SimpleEvolver) (kN : ℕ)
    (h : SimpleEvolver.run_generations o N
      (SimpleEvolver.make o seed crit pop n mm em el cr mr k).1
      (SimpleEvolver.make o seed crit pop n mm em el cr mr k).2
      = some (eN, kN)) :
    eN.history.length = N ∧ eN.generation = N ∧
    List.Pairwise (fun s1 s2 => s1.best_fitness ≤ s2.best_fitness)
      eN.history := by
  have h0 : (SimpleEvolver.make o seed crit pop n mm em el cr mr k).1.history
      = [] := rfl
  have hg0 : (SimpleEvolver.make o seed crit pop n
      mm em el cr mr k).1.generation = 0 := rfl
  have hrun := c3_run_inv o N _ _ eN kN h
    (fun _ => make_fitness_zero o seed crit mm em pop n el cr mr k)
    (by rw [h0]; exact List.Pairwise.nil)
    (by rw [h0]; intro s hs; cases hs)
  refine ⟨?_, ?_, hrun.2.2⟩
  · rw [hrun.1, h0]
    simp
  · rw [hrun.2.1, hg0]
    omega

unseal Rat.add Rat.inv Rat.mul Rat.sub in
/-- Claim C3, counterexample to the claim as stated: on the valid config
population_size 4, num_islands 2 (so 1 ≤ num_islands and
num_islands ≤ population_size), running evolve for N = 2 generations
crashes for the draw sequence whose reproduction draws select crossover,
so it does not produce exactly N statistics records. -/
theorem c3_counterexample :
    SimpleEvolver.run_generations oracleHalf 2
      (SimpleEvolver.make oracleHalf "s" "c" 4 2 "m" "m" true (6/10) (4/10) 0).1
      (SimpleEvolver.make oracleHalf "s" "c" 4 2 "m" "m" true (6/10) (4/10) 0).2
      = none ∧ ((1 : ℕ) ≤ 2 ∧ (2 : ℕ) ≤ 4) := by decide

unseal Rat.add Rat.inv Rat.mul Rat.sub in
/-- Witness for claim C3: a one-island, one-candidate run completes one
generation, and the theorem yields history length 1 = generation counter
and a sorted history. -/
theorem c3_witness :
    SimpleEvolver.run_generations oracle0 1
      (SimpleEvolver.make oracle0 "" "" 1 1 "m" "m" true (6/10) (4/10) 0).1
      (SimpleEvolver.make oracle0 "" "" 1 1 "m" "m" true (6/10) (4/10) 0).2
      = some (e3res, 0) ∧
    e3res.history.length = 1 ∧ e3res.generation = 1 ∧
    List.Pairwise (fun s1 s2 => s1.best_fitness ≤ s2.best_fitness)
      e3res.history := by
  have h : SimpleEvolver.run_generations oracle0 1
      (SimpleEvolver.make oracle0 "" "" 1 1 "m" "m" true (6/10) (4/10) 0).1
      (SimpleEvolver.make oracle0 "" "" 1 1 "m" "m" true (6/10) (4/10) 0).2
      = some (e3res, 0) := by decide
  have hc := c3_history oracle0 "" "" "m" "m" 1 1 true (6/10) (4/10) 0 1
    e3res 0 h
  exact ⟨h, hc.1, hc.2.1, hc.2.2⟩

unseal Rat.add Rat.inv Rat.mul Rat.sub in
/-- Witness for claim C4: a concrete generation step from a fresh state
(best fitness 0) succeeds, and the theorem yields monotonicity and the
bound on all island candidates. -/
theorem c4_witness :
    (0 : ℚ) ≤ SimpleEvolver.best_fitness_val state4w.best_candidate ∧
    SimpleEvolver.evolve_generation state4w oracle0 0
      = some (e4res, st4res, 0) ∧
    SimpleEvolver.best_fitness_val state4w.best_candidate
      ≤ SimpleEvolver.best_fitness_val e4res.best_candidate ∧
    ∀ c ∈ SimpleEvolver.all_candidates e4res.islands,
      c.fitness ≤ SimpleEvolver.best_fitness_val e4res.best_candidate := by
  have h0 : (0 : ℚ) ≤ SimpleEvolver.best_fitness_val state4w.best_candidate :=
    le_refl 0
  have h : SimpleEvolver.evolve_generation state4w oracle0 0
      = some (e4res, st4res, 0) := by decide
  have hc := c4_best_candidate state4w oracle0 0 e4res st4res 0 h0 h
  exact ⟨h0, h, hc.1, hc.2⟩

unseal Rat.add Rat.inv Rat.mul Rat.sub in
/-- Claim C7, counterexample to the claim as stated: with a single island
(a valid sizing) the generation step whose incremented counter is 5
performs no migration at all — the single island ends with its nominal 1
candidate, not nominal + 1 = 2 as the claim requires of every island. -/
theorem c7_counterexample :
    ((5 : ℕ) % 5 = 0) ∧
    (SimpleEvolver.evolve_generation state7c oracle0 0).map
        (fun r => (r.1.generation, r.1.islands.map List.length))
      = some (5, [1]) ∧
    state7c.population_size / state7c.num_islands + 1 = 2 ∧
    (1 : ℕ) ≠ 2 := by decide

unseal Rat.add Rat.inv Rat.mul Rat.sub in
/-- Witness for claim C7: a concrete two-island step at generation 4
succeeds; migration runs and both islands end with nominal + 1 = 2
candidates. -/
theorem c7_witness :
    SimpleEvolver.evolve_generation state7w oracle0 0
      = some (e7res, st7res, 0) ∧
    e7res.islands.length = state7w.num_islands ∧
    ∀ j, j < state7w.num_islands →
      (e7res.islands.getD j []).length
        = state7w.population_size / state7w.num_islands + 1 := by
  have h : SimpleEvolver.evolve_generation state7w oracle0 0
      = some (e7res, st7res, 0) := by decide
  have hc := c7_migration state7w oracle0 0 e7res st7res 0 (by decide)
    (by decide) (by decide) (by decide) (by decide) h
  exact ⟨h, hc.1, hc.2⟩
